import Mathlib

/-!
A shallow embedding of the gumlog segmented commit log core
(`internal/log`: store, index, segment, log) together with the raft
FSM glue (`Apply`, `Snapshot`, `Restore`), and theorems about the
behaviour of append, read, truncate and snapshot/restore.

Bytes are modelled as natural numbers (real bytes are `< 256`; the
well-formedness predicate records that bound where decoding relies on
it).  Offsets and sizes are `uint64` in the source; they are modelled
as unbounded naturals, and the one subtraction that can wrap at
reachable states (`nextOffset - 1` in `Truncate` and in `index.Read`)
is modelled with explicit modular arithmetic (`u64sub`).  Type casts
(`uint32(..)`, `int64(..)`) are modelled with explicit `% 2^w`.
-/

/-- `2 ^ 32`, the number of `uint32` values. -/
def U32 : Nat := 2 ^ 32

/-- `2 ^ 64`, the number of `uint64` values. -/
def U64 : Nat := 2 ^ 64

/-- Big-endian bytes of `v`, `w` bytes wide (`binary.BigEndian.PutUintN`). -/
def beBytes : Nat → Nat → List Nat
  | 0, _ => []
  | w + 1, v => beBytes w (v / 256) ++ [v % 256]

/-- Big-endian value of a byte string (`binary.BigEndian.UintN`). -/
def beVal (bs : List Nat) : Nat := bs.foldl (fun a b => a * 256 + b) 0

/-- Wrapping `uint64` subtraction: the value of `a - b` when `a` and `b`
are `uint64` variables (correct for `a b < 2^64`). -/
def u64sub (a b : Nat) : Nat := (a + (U64 - b % U64)) % U64

/-- Reinterpret a `uint64` value as `int64` (two's complement), as the
source's `int64(off - baseOffset)` conversion does. -/
def int64ofU64 (n : Nat) : Int :=
  if n % U64 < 2 ^ 63 then (n % U64 : Int) else (n % U64 : Int) - (U64 : Int)

/-- The user record (`api.Record`): opaque value bytes, `offset : u64`,
`term : u64`, `type : u32`. -/
structure Record where
  value : List Nat
  offset : Nat
  term : Nat
  type : Nat
deriving DecidableEq

instance : Inhabited Record := ⟨⟨[], 0, 0, 0⟩⟩

/-- Modelled from the spec: the deterministic, length-delimited binary
serialization of the `Record` message (`proto.Marshal`; the generated
`api/v1` protobuf code is not under `src/`).  All fields are encoded
fixed-width big-endian and the value bytes are length-delimited:
`offset (8) ++ term (8) ++ type (4) ++ len(value) (8) ++ value`. -/
def encodeRecord (r : Record) : List Nat :=
  beBytes 8 r.offset ++ beBytes 8 r.term ++ beBytes 4 r.type ++
    beBytes 8 r.value.length ++ r.value

/-- Modelled from the spec: inverse of `encodeRecord` (`proto.Unmarshal`),
failing on any length mismatch. -/
def decodeRecord (bs : List Nat) : Option Record :=
  if 28 ≤ bs.length then
    let len := beVal ((bs.drop 20).take 8)
    if bs.length = 28 + len then
      some ⟨bs.drop 28, beVal (bs.take 8), beVal ((bs.drop 8).take 8),
            beVal ((bs.drop 16).take 4)⟩
    else none
  else none

/-- `lenWidth`: number of bytes used to store a record frame's length. -/
def lenWidth : Nat := 8

/-- The store: an append-only file of length-prefixed record frames.
`data` is the contents of the backing file including bytes still in the
write buffer (reads flush the buffer first, so the distinction is not
observable here); `size` is the cached size counter. -/
structure Store where
  data : List Nat
  size : Nat
deriving DecidableEq

/-- `store.Append`: returns `(bytes written, position, new store)`;
writes the `uint64` big-endian length prefix then the bytes. -/
def Store.Append (s : Store) (p : List Nat) : Nat × Nat × Store :=
  (lenWidth + p.length, s.size,
   { data := s.data ++ beBytes 8 p.length ++ p, size := s.size + (lenWidth + p.length) })

/-- `store.Read`: read the 8-byte length at `pos`, then that many bytes
at `pos + 8`; `none` models the I/O error of a short positional read. -/
def Store.Read (s : Store) (pos : Nat) : Option (List Nat) :=
  if pos + 8 ≤ s.data.length then
    let len := beVal ((s.data.drop pos).take 8)
    if pos + 8 + len ≤ s.data.length then some ((s.data.drop (pos + 8)).take len)
    else none
  else none

/-- `entWidth = offWidth + posWidth = 4 + 8`: width of one index entry. -/
def entWidth : Nat := 12

/-- The index: a memory-mapped byte region (`mmap`, length fixed at
`MaxIndexBytes` while open) and the in-use size. -/
structure Index where
  mmap : List Nat
  size : Nat
deriving DecidableEq

/-- Overwrite the bytes of `m` at position `pos` with `bs`. -/
def writeBytesAt (m : List Nat) (pos : Nat) (bs : List Nat) : List Nat :=
  m.take pos ++ bs ++ m.drop (pos + bs.length)

/-- `index.Write(off, pos)`: `none` models the `io.EOF` no-space sentinel
returned when `len(mmap) < size + entWidth`; otherwise the 12-byte entry
(4-byte big-endian `off`, 8-byte big-endian `pos`) is written at `size`. -/
def Index.Write (i : Index) (off pos : Nat) : Option Index :=
  if i.mmap.length < i.size + entWidth then none
  else some { mmap := writeBytesAt i.mmap i.size (beBytes 4 off ++ beBytes 8 pos),
              size := i.size + entWidth }

/-- `index.Read(in)`: `none` models `io.EOF` (empty index, or entry out of
the in-use prefix).  `in = -1` selects the last entry; otherwise `in` is
truncated to `uint32` exactly as the source's casts do. -/
def Index.Read (i : Index) (inp : Int) : Option (Nat × Nat) :=
  if i.size = 0 then none
  else
    let out : Nat := if inp = -1 then u64sub (i.size / entWidth) 1 % U32
                     else (inp.emod (U32 : Int)).toNat
    let pos := out * entWidth
    if i.size < pos + entWidth then none
    else some (beVal ((i.mmap.drop pos).take 4), beVal ((i.mmap.drop (pos + 4)).take 8))

/-- Segment configuration (`Config.Segment`). -/
structure Config where
  maxStoreBytes : Nat
  maxIndexBytes : Nat
  initialOffset : Nat
deriving DecidableEq

/-- A segment: paired store and index plus absolute base and next offsets. -/
structure Segment where
  store : Store
  index : Index
  baseOffset : Nat
  nextOffset : Nat
  config : Config
deriving DecidableEq

/-- `newSegment` in the only situation the claims exercise: the segment
files do not exist yet (fresh directory, rollover, or reset), so the
store opens empty, the index file is grown to `MaxIndexBytes` zero bytes
with in-use size `0` (the stat happens before the growth), and
`index.Read(-1)` fails so `nextOffset = baseOffset`. -/
def newSegment (c : Config) (base : Nat) : Segment :=
  { store := ⟨[], 0⟩,
    index := ⟨List.replicate c.maxIndexBytes 0, 0⟩,
    baseOffset := base, nextOffset := base, config := c }

/-- Errors surfaced by the log core: `eof` is the `io.EOF` sentinel (index
no-space / empty-read, short store read), `offsetOutOfRange` is
`api.ErrOffsetOutOfRange{offset}`, `decodeFail` a `proto.Unmarshal` error. -/
inductive Err where
  | eof
  | offsetOutOfRange (offset : Nat)
  | decodeFail
deriving DecidableEq

deriving instance DecidableEq for Except

/-- Result of a segment append: the returned offset or error, plus the
post state of the segment and of the caller's record (the source mutates
both through pointers). -/
structure SegAppendOut where
  result : Except Err Nat
  seg : Segment
  record : Record
deriving DecidableEq

/-- `segment.Append`: sets `record.Offset = nextOffset`, encodes, appends
to the store, then writes `(uint32(nextOffset - baseOffset), pos)` into
the index; on index no-space the error is returned with the store
already grown and `nextOffset` unchanged. -/
def Segment.Append (s : Segment) (r0 : Record) : SegAppendOut :=
  let cur := s.nextOffset
  let r := { r0 with offset := cur }
  let p := encodeRecord r
  let ap := s.store.Append p
  match s.index.Write (u64sub s.nextOffset s.baseOffset % U32) ap.2.1 with
  | none => ⟨.error .eof, { s with store := ap.2.2 }, r⟩
  | some idx' =>
      ⟨.ok cur, { s with store := ap.2.2, index := idx', nextOffset := s.nextOffset + 1 }, r⟩

/-- `segment.Read`: look the relative offset up in the index, read the
frame from the store at the returned position, decode. -/
def Segment.Read (s : Segment) (off : Nat) : Except Err Record :=
  match s.index.Read (int64ofU64 (u64sub off s.baseOffset)) with
  | none => .error .eof
  | some (_, pos) =>
      match s.store.Read pos with
      | none => .error .eof
      | some p =>
          match decodeRecord p with
          | none => .error .decodeFail
          | some r => .ok r

/-- `segment.IsMaxed`: store or index has reached its configured cap. -/
def Segment.IsMaxed (s : Segment) : Bool :=
  decide (s.config.maxStoreBytes ≤ s.store.size) ||
    decide (s.config.maxIndexBytes ≤ s.index.size)

/-- The log: its configuration and the ordered segment list.  The active
segment is the last element of the list (every path that installs a
segment appends it at the tail and makes it active). -/
structure Log where
  config : Config
  segments : List Segment
deriving DecidableEq

/-- `Log.newSegment`: create a fresh segment at `off` and install it as
the active (last) segment. -/
def Log.pushSegment (l : Log) (off : Nat) : Log :=
  { l with segments := l.segments ++ [newSegment l.config off] }

/-- `NewLog` over an empty directory: apply the 1024-byte defaults to
zero max sizes, then `setup` creates one fresh segment at
`InitialOffset`. -/
def NewLog (c0 : Config) : Log :=
  let c : Config :=
    { c0 with
      maxStoreBytes := if c0.maxStoreBytes = 0 then 1024 else c0.maxStoreBytes,
      maxIndexBytes := if c0.maxIndexBytes = 0 then 1024 else c0.maxIndexBytes }
  { config := c, segments := [newSegment c c.initialOffset] }

/-- Result of a log append: offset or error, post log, post record. -/
structure LogAppendOut where
  result : Except Err Nat
  log : Log
  record : Record
deriving DecidableEq

/-- `Log.Append`: append to the active segment; if the segment is then
maxed, install a fresh segment at `off + 1`.  The `none`-segments case
cannot arise in the source while `activeSegment` is valid. -/
def Log.Append (l : Log) (r : Record) : LogAppendOut :=
  match l.segments.getLast? with
  | none => ⟨.error .eof, l, r⟩
  | some s =>
      let out := s.Append r
      let l' : Log := { l with segments := l.segments.dropLast ++ [out.seg] }
      match out.result with
      | .error e => ⟨.error e, l', out.record⟩
      | .ok off =>
          if out.seg.IsMaxed then ⟨.ok off, l'.pushSegment (off + 1), out.record⟩
          else ⟨.ok off, l', out.record⟩

/-- `Log.Read`: linear scan for the segment whose
`[baseOffset, nextOffset)` range contains `off`; fail with
`ErrOffsetOutOfRange{off}` when there is none. -/
def Log.Read (l : Log) (off : Nat) : Except Err Record :=
  match l.segments.find? (fun s => decide (s.baseOffset ≤ off) && decide (off < s.nextOffset)) with
  | none => .error (.offsetOutOfRange off)
  | some s => s.Read off

/-- `Log.LowestOffset`: `segments[0].baseOffset`; `none` models the
out-of-bounds indexing when the segment list is empty. -/
def Log.LowestOffset (l : Log) : Option Nat :=
  l.segments.head?.map (·.baseOffset)

/-- `Log.HighestOffset`: the last segment's `nextOffset - 1`, or `0` when
that `nextOffset` is `0`; `none` models out-of-bounds indexing on an
empty segment list. -/
def Log.HighestOffset (l : Log) : Option Nat :=
  l.segments.getLast?.map (fun s => if s.nextOffset = 0 then 0 else s.nextOffset - 1)

/-- `Log.Truncate(lowest)`: drop (and `Remove`) every segment whose
`nextOffset - 1 ≤ lowest`, with `uint64` arithmetic on the subtraction. -/
def Log.Truncate (l : Log) (lowest : Nat) : Log :=
  { l with segments := l.segments.filter (fun s => !decide (u64sub s.nextOffset 1 ≤ lowest)) }

/-- `Log.Reader` as a byte string: the concatenation of every segment's
store contents (each `originReader` drains one store from byte 0). -/
def Log.Reader (l : Log) : List Nat :=
  (l.segments.map (fun s => s.store.data)).flatten

/-- `Log.Reset`: remove everything and re-run setup over the now-empty
directory, producing a single fresh segment at `InitialOffset`. -/
def Log.Reset (l : Log) : Log :=
  { l with segments := [newSegment l.config l.config.initialOffset] }

/-- The FSM of the distributed log: it holds the user log. -/
structure FSM where
  log : Log
deriving DecidableEq

/-- The one-byte request-type discriminator: `AppendRequestType = 0`
(`iota`), the only known kind. -/
def AppendRequestType : Nat := 0

/-- The `interface{}` value `fsm.Apply` returns: `nil`, an error value,
or a `ProduceResponse` carrying the offset. -/
inductive ApplyResult where
  | nil
  | errValue (e : Err)
  | response (offset : Nat)
deriving DecidableEq

/-- Modelled from the spec: the `ProduceRequest` carries exactly the user
`Record` (generated `api/v1` protobuf code is not under `src/`), so its
length-delimited serialization is decoded with the record decoder. -/
def decodeProduceRequest (bs : List Nat) : Option Record := decodeRecord bs

/-- `fsm.applyAppend`: unmarshal the `ProduceRequest`, append its record
to the user log, and return the offset as a `ProduceResponse`; errors
are returned as values.  The log is mutated even when the append fails. -/
def FSM.applyAppend (f : FSM) (b : List Nat) : ApplyResult × FSM :=
  match decodeProduceRequest b with
  | none => (.errValue .decodeFail, f)
  | some rec =>
      let out := f.log.Append rec
      match out.result with
      | .error e => (.errValue e, ⟨out.log⟩)
      | .ok off => (.response off, ⟨out.log⟩)

/-- `fsm.Apply`: dispatch on the one-byte discriminator `buf[0]`; the
switch handles only `AppendRequestType` and anything else falls through
to `return nil`.  `none` models the panic of `buf[0]` on empty data. -/
def FSM.Apply (f : FSM) (data : List Nat) : Option (ApplyResult × FSM) :=
  match data with
  | [] => none
  | b :: rest => if b = AppendRequestType then some (f.applyAppend rest) else some (.nil, f)

/-- `fsm.Snapshot` followed by `Persist`: the snapshot byte stream is
exactly the user log's `Reader()` stream. -/
def FSM.Snapshot (f : FSM) : List Nat := f.log.Reader

/-- The loop body of `fsm.Restore`: read an 8-byte length, read that many
bytes, decode a record; on the first record (`i = 0`) set the user log's
`InitialOffset` to the record's offset and reset the log; then append.
`io.ReadFull` returns plain `io.EOF` only on an empty remainder. -/
def restoreLoop (l : Log) (bs : List Nat) (i : Nat) : Except Err Log :=
  if _hnil : bs.isEmpty then .ok l
  else if _h8 : bs.length < 8 then .error .eof
  else
    let size := beVal (bs.take 8)
    let rest := bs.drop 8
    if _hsz : rest.length < size then .error .eof
    else
      match decodeRecord (rest.take size) with
      | none => .error .decodeFail
      | some r =>
          let l1 := if i = 0 then
              Log.Reset { l with config := { l.config with initialOffset := r.offset } }
            else l
          let out := l1.Append r
          match out.result with
          | .error e => .error e
          | .ok _ => restoreLoop out.log (rest.drop size) (i + 1)
termination_by bs.length
decreasing_by
  simp only [List.length_drop]
  simp [List.isEmpty_iff] at _hnil
  have : 0 < bs.length := List.length_pos.2 _hnil
  omega

/-- `fsm.Restore` over a fully buffered snapshot stream. -/
def FSM.Restore (f : FSM) (bs : List Nat) : Except Err FSM :=
  (restoreLoop f.log bs 0).map (⟨·⟩)

/-- A store frame: 8-byte big-endian length prefix followed by the bytes. -/
def frame (p : List Nat) : List Nat := beBytes 8 p.length ++ p

/-- The store image of a record list: one frame per encoded record. -/
def framesOf (rs : List Record) : List Nat :=
  (rs.map (fun r => frame (encodeRecord r))).flatten

/-- Store position of the `i`-th record when the records `rs` are framed
in order from byte 0. -/
def posOf (rs : List Record) (i : Nat) : Nat :=
  ((rs.take i).map (fun r => lenWidth + (encodeRecord r).length)).sum

/-- Parse a store byte string back into its record list; fails unless the
string is a clean concatenation of decodable frames.  (Verification
artifact used to state well-formedness; the source equivalent is the
frame loop of `fsm.Restore`.)  The fuel argument only bounds the number
of iterations so that the recursion is structural; every iteration
consumes at least 8 bytes, so `parseFrames` supplies enough fuel for the
exhausted-fuel branch to be unreachable. -/
def parseFramesGo : Nat → List Nat → Option (List Record)
  | _, [] => some []
  | 0, _ :: _ => none
  | fuel + 1, b :: bs' =>
      let bs := b :: bs'
      if bs.length < 8 then none
      else
        let len := beVal (bs.take 8)
        let rest := bs.drop 8
        if rest.length < len then none
        else
          match decodeRecord (rest.take len) with
          | none => none
          | some r => (parseFramesGo fuel (rest.drop len)).map (r :: ·)

/-- Parse a whole store byte string into its record list. -/
def parseFrames (bs : List Nat) : Option (List Record) :=
  parseFramesGo (bs.length + 1) bs

/-- The records of a segment, recovered from its store bytes. -/
def Segment.recs (s : Segment) : List Record :=
  (parseFrames s.store.data).getD []

/-- Well-formedness of a segment under configuration `c`: the structural
invariants every segment reachable through the log operations satisfies.
The index's in-use prefix holds one 12-byte entry per record, mapping
relative offset `i` to the byte position of frame `i` in the store, and
the store is a clean concatenation of encoded-record frames whose
offsets are contiguous from `baseOffset`. -/
def SegWF (c : Config) (s : Segment) : Prop :=
  s.config = c ∧
  s.baseOffset ≤ s.nextOffset ∧
  s.nextOffset < U64 ∧
  s.index.size = entWidth * (s.nextOffset - s.baseOffset) ∧
  s.index.mmap.length = c.maxIndexBytes ∧
  s.index.size ≤ s.index.mmap.length ∧
  s.store.size = s.store.data.length ∧
  s.store.size < U64 ∧
  (∀ b ∈ s.store.data, b < 256) ∧
  (∀ b ∈ s.index.mmap, b < 256) ∧
  parseFrames s.store.data = some s.recs ∧
  s.recs.length = s.nextOffset - s.baseOffset ∧
  (∀ i ∈ List.range s.recs.length, (s.recs.getD i default).offset = s.baseOffset + i) ∧
  (∀ i ∈ List.range s.recs.length,
    (s.index.mmap.drop (entWidth * i)).take entWidth =
      beBytes 4 i ++ beBytes 8 (posOf s.recs i))

/-- Contiguity of adjacent segments: the next one starts where the
previous one ends. -/
def Contig (a b : Segment) : Prop := a.nextOffset = b.baseOffset

instance : DecidableRel Contig :=
  fun a b => inferInstanceAs (Decidable (a.nextOffset = b.baseOffset))

/-- Boolean check of segment-list contiguity (kernel-computable). -/
def chainContigB : List Segment → Bool
  | [] => true
  | [_] => true
  | a :: b :: rest => decide (a.nextOffset = b.baseOffset) && chainContigB (b :: rest)

theorem chainContigB_iff : ∀ ss : List Segment,
    chainContigB ss = true ↔ List.Chain' Contig ss := by
  intro ss
  match ss with
  | [] => simp [chainContigB]
  | [a] => simp [chainContigB]
  | a :: b :: rest =>
      rw [chainContigB, List.chain'_cons, Bool.and_eq_true, decide_eq_true_eq,
        chainContigB_iff (b :: rest)]
      exact Iff.rfl

instance (ss : List Segment) : Decidable (List.Chain' Contig ss) :=
  decidable_of_iff (chainContigB ss = true) (chainContigB_iff ss)

/-- Well-formedness of a log: a non-empty segment list of well-formed
segments, contiguous at the seams, under a configuration whose index cap
keeps relative offsets inside `uint32` (the spec's stated reason for the
4-byte index key). -/
def LogWF (l : Log) : Prop :=
  l.segments ≠ [] ∧
  List.Chain' Contig l.segments ∧
  (∀ s ∈ l.segments, SegWF l.config s) ∧
  l.config.maxIndexBytes < entWidth * U32

theorem LogWF.chain {l : Log} (h : LogWF l) : List.Chain' Contig l.segments := h.2.1

instance (c : Config) (s : Segment) : Decidable (SegWF c s) :=
  inferInstanceAs (Decidable
    (s.config = c ∧
     s.baseOffset ≤ s.nextOffset ∧
     s.nextOffset < U64 ∧
     s.index.size = entWidth * (s.nextOffset - s.baseOffset) ∧
     s.index.mmap.length = c.maxIndexBytes ∧
     s.index.size ≤ s.index.mmap.length ∧
     s.store.size = s.store.data.length ∧
     s.store.size < U64 ∧
     (∀ b ∈ s.store.data, b < 256) ∧
     (∀ b ∈ s.index.mmap, b < 256) ∧
     parseFrames s.store.data = some s.recs ∧
     s.recs.length = s.nextOffset - s.baseOffset ∧
     (∀ i ∈ List.range s.recs.length, (s.recs.getD i default).offset = s.baseOffset + i) ∧
     (∀ i ∈ List.range s.recs.length,
       (s.index.mmap.drop (entWidth * i)).take entWidth =
         beBytes 4 i ++ beBytes 8 (posOf s.recs i))))

instance (l : Log) : Decidable (LogWF l) :=
  inferInstanceAs (Decidable
    (l.segments ≠ [] ∧
     List.Chain' Contig l.segments ∧
     (∀ s ∈ l.segments, SegWF l.config s) ∧
     l.config.maxIndexBytes < entWidth * U32))

/-- `nextOffset` of the active (last) segment; `0` on an empty list. -/
def Log.activeNext (l : Log) : Nat :=
  match l.segments.getLast? with
  | some s => s.nextOffset
  | none => 0

/-- Run a sequence of `Append` calls, collecting the returned offsets;
`none` as soon as one append fails. -/
def Log.AppendSeq (l : Log) : List Record → Option (List Nat × Log)
  | [] => some ([], l)
  | r :: rs =>
      let out := l.Append r
      match out.result with
      | .error _ => none
      | .ok off => (out.log.AppendSeq rs).map (fun p => (off :: p.1, p.2))

/-- `true` iff some segment's `[baseOffset, nextOffset)` range contains
`off`, i.e. the log holds a record at offset `off`. -/
def Log.hasOffset (l : Log) (off : Nat) : Bool :=
  l.segments.any (fun s => decide (s.baseOffset ≤ off) && decide (off < s.nextOffset))

/-! ### Byte-codec lemmas -/

theorem length_beBytes (w v : Nat) : (beBytes w v).length = w := by
  induction w generalizing v with
  | zero => rfl
  | succ w ih => simp [beBytes, ih]

theorem beVal_concat (xs : List Nat) (b : Nat) :
    beVal (xs ++ [b]) = beVal xs * 256 + b := by
  simp [beVal, List.foldl_concat]

theorem mod_pow_succ_256 (m v : Nat) :
    v % 256 ^ (m + 1) = (v / 256 % 256 ^ m) * 256 + v % 256 := by
  have h1 : (v % 256 ^ (m + 1)) % 256 = v % 256 :=
    Nat.mod_mod_of_dvd v (dvd_pow_self 256 (Nat.succ_ne_zero m))
  have h2 : (v % 256 ^ (m + 1)) / 256 = v / 256 % 256 ^ m := by
    rw [pow_succ']
    exact Nat.mod_mul_right_div_self v 256 (256 ^ m)
  omega

theorem beVal_beBytes (w v : Nat) : beVal (beBytes w v) = v % 256 ^ w := by
  induction w generalizing v with
  | zero => simp [beBytes, beVal, Nat.mod_one]
  | succ w ih =>
      rw [beBytes, beVal_concat, ih, mod_pow_succ_256]



theorem beBytes_mod (w v : Nat) : beBytes w (v % 256 ^ w) = beBytes w v := by
  induction w generalizing v with
  | zero => rfl
  | succ w ih =>
      have h1 : (v % 256 ^ (w + 1)) % 256 = v % 256 :=
        Nat.mod_mod_of_dvd v (dvd_pow_self 256 (Nat.succ_ne_zero w))
      have h2 : (v % 256 ^ (w + 1)) / 256 = v / 256 % 256 ^ w := by
        rw [pow_succ']
        exact Nat.mod_mul_right_div_self v 256 (256 ^ w)
      rw [beBytes, beBytes, h1, h2, ih]

theorem beBytes_lt_256 (w v : Nat) : ∀ b ∈ beBytes w v, b < 256 := by
  induction w generalizing v with
  | zero => simp [beBytes]
  | succ w ih =>
      intro b hb
      simp only [beBytes, List.mem_append, List.mem_singleton] at hb
      rcases hb with h | h
      · exact ih _ b h
      · omega

theorem beVal_lt (bs : List Nat) (h : ∀ b ∈ bs, b < 256) :
    beVal bs < 256 ^ bs.length := by
  induction bs using List.reverseRecOn with
  | nil => simp [beVal]
  | append_singleton xs b ih =>
      rw [beVal_concat]
      simp only [List.mem_append, List.mem_singleton] at h
      have hb : b < 256 := h b (Or.inr rfl)
      have hxs : beVal xs < 256 ^ xs.length := ih fun x hx => h x (Or.inl hx)
      simp only [List.length_append, List.length_singleton, pow_succ]
      nlinarith

theorem beBytes_beVal (bs : List Nat) (h : ∀ b ∈ bs, b < 256) :
    beBytes bs.length (beVal bs) = bs := by
  induction bs using List.reverseRecOn with
  | nil => rfl
  | append_singleton xs b ih =>
      simp only [List.mem_append, List.mem_singleton] at h
      have hb : b < 256 := h b (Or.inr rfl)
      have hxs := ih fun x hx => h x (Or.inl hx)
      rw [beVal_concat]
      simp only [List.length_append, List.length_singleton]
      rw [beBytes]
      have hdiv : (beVal xs * 256 + b) / 256 = beVal xs := by omega
      have hmod : (beVal xs * 256 + b) % 256 = b % 256 := by omega
      rw [hdiv, hmod, hxs, Nat.mod_eq_of_lt hb]

theorem beVal_lt_U64 (bs : List Nat) (h : ∀ b ∈ bs, b < 256) (hl : bs.length = 8) :
    beVal bs < U64 := by
  have := beVal_lt bs h
  rw [hl] at this
  simpa [U64] using this

/-! ### Slice and write helpers -/

theorem writeBytesAt_eq (m : List Nat) (pos : Nat) (bs : List Nat) :
    writeBytesAt m pos bs = m.take pos ++ bs ++ m.drop (pos + bs.length) := rfl

theorem writeBytesAt_drop_take (m : List Nat) (pos : Nat) (bs : List Nat)
    (h : pos + bs.length ≤ m.length) :
    ((writeBytesAt m pos bs).drop pos).take bs.length = bs := by
  have hlen : (m.take pos).length = pos := by
    rw [List.length_take]
    omega
  rw [writeBytesAt_eq, List.append_assoc, List.drop_left' hlen,
    List.take_left' rfl]

theorem slice12_parts (X A B : List Nat) (hA : A.length = 4) (hB : B.length = 8)
    (h : X.take 12 = A ++ B) :
    X.take 4 = A ∧ (X.drop 4).take 8 = B := by
  constructor
  · have : (X.take 12).take 4 = X.take 4 := by
      rw [List.take_take, show (4 : Nat) ⊓ 12 = 4 from rfl]
    rw [← this, h, List.take_left' hA]
  · have hX : X = (A ++ B) ++ X.drop 12 := by
      conv_lhs => rw [← List.take_append_drop 12 X]
      rw [h]
    rw [hX, List.append_assoc, List.drop_left' hA, List.take_left' hB]

theorem find?_append_of_none {α : Type} (xs ys : List α) (p : α → Bool)
    (h : ∀ x ∈ xs, ¬ p x) : (xs ++ ys).find? p = ys.find? p := by
  induction xs with
  | nil => rfl
  | cons a as ih => simp_all [List.find?_cons]

/-! ### Record codec lemmas -/

theorem length_encodeRecord (r : Record) :
    (encodeRecord r).length = 28 + r.value.length := by
  simp [encodeRecord, length_beBytes]
  omega

theorem pow256_8 : (256 : Nat) ^ 8 = U64 := by norm_num [U64]

theorem pow256_4 : (256 : Nat) ^ 4 = U32 := by norm_num [U32]

theorem encodeRecord_assoc (r : Record) :
    encodeRecord r = beBytes 8 r.offset ++ (beBytes 8 r.term ++
      (beBytes 4 r.type ++ (beBytes 8 r.value.length ++ r.value))) := by
  simp [encodeRecord, List.append_assoc]

theorem encodeRecord_slices (r : Record) :
    (encodeRecord r).take 8 = beBytes 8 r.offset ∧
    ((encodeRecord r).drop 8).take 8 = beBytes 8 r.term ∧
    ((encodeRecord r).drop 16).take 4 = beBytes 4 r.type ∧
    ((encodeRecord r).drop 20).take 8 = beBytes 8 r.value.length ∧
    (encodeRecord r).drop 28 = r.value := by
  have e := encodeRecord_assoc r
  have hd8 : (encodeRecord r).drop 8 =
      beBytes 8 r.term ++ (beBytes 4 r.type ++ (beBytes 8 r.value.length ++ r.value)) := by
    rw [e, List.drop_left' (length_beBytes 8 r.offset)]
  have hd16 : (encodeRecord r).drop 16 =
      beBytes 4 r.type ++ (beBytes 8 r.value.length ++ r.value) := by
    have h : (encodeRecord r).drop 16 = ((encodeRecord r).drop 8).drop 8 :=
      (List.drop_drop 8 8 _).symm
    rw [h, hd8, List.drop_left' (length_beBytes 8 r.term)]
  have hd20 : (encodeRecord r).drop 20 = beBytes 8 r.value.length ++ r.value := by
    have h : (encodeRecord r).drop 20 = ((encodeRecord r).drop 16).drop 4 :=
      (List.drop_drop 4 16 _).symm
    rw [h, hd16, List.drop_left' (length_beBytes 4 r.type)]
  have hd28 : (encodeRecord r).drop 28 = r.value := by
    have h : (encodeRecord r).drop 28 = ((encodeRecord r).drop 20).drop 8 :=
      (List.drop_drop 8 20 _).symm
    rw [h, hd20, List.drop_left' (length_beBytes 8 r.value.length)]
  refine ⟨?_, ?_, ?_, ?_, hd28⟩
  · rw [e, List.take_left' (length_beBytes 8 r.offset)]
  · rw [hd8, List.take_left' (length_beBytes 8 r.term)]
  · rw [hd16, List.take_left' (length_beBytes 4 r.type)]
  · rw [hd20, List.take_left' (length_beBytes 8 r.value.length)]

theorem decode_encodeRecord (r : Record) (h : r.value.length < U64) :
    decodeRecord (encodeRecord r) =
      some ⟨r.value, r.offset % U64, r.term % U64, r.type % U32⟩ := by
  obtain ⟨h1, h2, h3, h4, h5⟩ := encodeRecord_slices r
  have hlen := length_encodeRecord r
  have hbe : beVal ((encodeRecord r).drop 20 |>.take 8) = r.value.length := by
    rw [h4, beVal_beBytes, pow256_8, Nat.mod_eq_of_lt h]
  simp only [decodeRecord, hlen, hbe]
  rw [if_pos trivial]
  rw [h1, h2, h3, h5, beVal_beBytes, beVal_beBytes, beVal_beBytes, pow256_8, pow256_4]
  rw [if_pos (Nat.le_add_right 28 r.value.length)]

theorem encodeRecord_mod (v : List Nat) (o t ty : Nat) :
    encodeRecord ⟨v, o % U64, t % U64, ty % U32⟩ = encodeRecord ⟨v, o, t, ty⟩ := by
  simp only [encodeRecord, ← pow256_8, ← pow256_4, beBytes_mod]

/-- A record whose numeric fields fit their machine widths decodes from
its own encoding unchanged. -/
theorem decode_encode_canonical (r : Record) (hv : r.value.length < U64)
    (ho : r.offset < U64) (ht : r.term < U64) (hy : r.type < U32) :
    decodeRecord (encodeRecord r) = some r := by
  rw [decode_encodeRecord r hv, Nat.mod_eq_of_lt ho, Nat.mod_eq_of_lt ht,
    Nat.mod_eq_of_lt hy]

theorem decodeRecord_some (bs : List Nat) (r : Record)
    (h : decodeRecord bs = some r) (hb : ∀ b ∈ bs, b < 256) :
    bs = encodeRecord r ∧ r.offset < U64 ∧ r.term < U64 ∧ r.type < U32 ∧
      28 + r.value.length = bs.length ∧ (∀ b ∈ r.value, b < 256) := by
  simp only [decodeRecord] at h
  by_cases h28 : 28 ≤ bs.length
  · rw [if_pos h28] at h
    by_cases heq : bs.length = 28 + beVal ((bs.drop 20).take 8)
    · rw [if_pos heq] at h
      obtain rfl : (⟨bs.drop 28, beVal (bs.take 8), beVal ((bs.drop 8).take 8),
          beVal ((bs.drop 16).take 4)⟩ : Record) = r := by
        injection h
      have hsub : ∀ (n : Nat), ∀ b ∈ bs.drop n, b < 256 :=
        fun n b hmem => hb b (List.drop_subset n bs hmem)
      have hsubt : ∀ (n m : Nat), ∀ b ∈ (bs.drop n).take m, b < 256 :=
        fun n m b hmem => hsub n b (List.take_subset m _ hmem)
      have hsubt0 : ∀ (m : Nat), ∀ b ∈ bs.take m, b < 256 :=
        fun m b hmem => hb b (List.take_subset m _ hmem)
      have l1 : (bs.take 8).length = 8 := by rw [List.length_take]; omega
      have l2 : ((bs.drop 8).take 8).length = 8 := by
        rw [List.length_take, List.length_drop]; omega
      have l3 : ((bs.drop 16).take 4).length = 4 := by
        rw [List.length_take, List.length_drop]; omega
      have l4 : ((bs.drop 20).take 8).length = 8 := by
        rw [List.length_take, List.length_drop]; omega
      refine ⟨?_, ?_, ?_, ?_, ?_, hsub 28⟩
      · have e1 := beBytes_beVal (bs.take 8) (hsubt0 8)
        rw [l1] at e1
        have e2 := beBytes_beVal ((bs.drop 8).take 8) (hsubt 8 8)
        rw [l2] at e2
        have e3 := beBytes_beVal ((bs.drop 16).take 4) (hsubt 16 4)
        rw [l3] at e3
        have e4 := beBytes_beVal ((bs.drop 20).take 8) (hsubt 20 8)
        rw [l4] at e4
        have hvlen : (bs.drop 28).length = beVal ((bs.drop 20).take 8) := by
          rw [List.length_drop]; omega
        show bs = encodeRecord ⟨bs.drop 28, beVal (bs.take 8), beVal ((bs.drop 8).take 8),
          beVal ((bs.drop 16).take 4)⟩
        simp only [encodeRecord, hvlen, e1, e2, e3, e4]
        have s4 : (bs.drop 20).take 8 ++ bs.drop 28 = bs.drop 20 := by
          have hdd : bs.drop 28 = (bs.drop 20).drop 8 := (List.drop_drop 8 20 bs).symm
          rw [hdd, List.take_append_drop]
        have s3 : (bs.drop 16).take 4 ++ bs.drop 20 = bs.drop 16 := by
          have hdd : bs.drop 20 = (bs.drop 16).drop 4 := (List.drop_drop 4 16 bs).symm
          rw [hdd, List.take_append_drop]
        have s2 : (bs.drop 8).take 8 ++ bs.drop 16 = bs.drop 8 := by
          have hdd : bs.drop 16 = (bs.drop 8).drop 8 := (List.drop_drop 8 8 bs).symm
          rw [hdd, List.take_append_drop]
        have s1 : bs.take 8 ++ bs.drop 8 = bs := List.take_append_drop 8 bs
        rw [List.append_assoc, List.append_assoc, List.append_assoc,
          s4, s3, s2, s1]
      · show beVal (bs.take 8) < U64
        have := beVal_lt (bs.take 8) (hsubt0 8)
        rw [l1, pow256_8] at this
        exact this
      · show beVal ((bs.drop 8).take 8) < U64
        have := beVal_lt ((bs.drop 8).take 8) (hsubt 8 8)
        rw [l2, pow256_8] at this
        exact this
      · show beVal ((bs.drop 16).take 4) < U32
        have := beVal_lt ((bs.drop 16).take 4) (hsubt 16 4)
        rw [l3, pow256_4] at this
        exact this
      · show 28 + (bs.drop 28).length = bs.length
        rw [List.length_drop]
        omega
    · rw [if_neg heq] at h
      exact absurd h (by simp)
  · rw [if_neg h28] at h
    exact absurd h (by simp)

/-! ### Machine-arithmetic helpers -/

theorem U64_pos : 0 < U64 := by norm_num [U64]

theorem u64sub_eq (a b : Nat) (hb : b ≤ a) (ha : a < U64) : u64sub a b = a - b := by
  unfold u64sub
  have hU : 0 < U64 := U64_pos
  have hbU : b % U64 = b := Nat.mod_eq_of_lt (lt_of_le_of_lt hb ha)
  rw [hbU]
  have hsplit : a + (U64 - b) = (a - b) + U64 := by omega
  rw [hsplit, Nat.add_mod_right, Nat.mod_eq_of_lt (by omega)]

theorem int64ofU64_small (n : Nat) (h : n < 2 ^ 63) : int64ofU64 n = (n : Int) := by
  have hU : n < U64 := lt_trans h (by norm_num [U64])
  unfold int64ofU64
  rw [Nat.mod_eq_of_lt hU, if_pos h]
  exact Int.emod_eq_of_lt (by positivity) (by exact_mod_cast hU)

/-! ### Step lemmas for the recursive loops -/

theorem parseFrames_nil : parseFrames [] = some [] := rfl

theorem frame_ne_nil (p : List Nat) : frame p ≠ [] := by
  simp only [frame]
  intro h
  have := congrArg List.length h
  simp [length_beBytes] at this

theorem length_frame (p : List Nat) : (frame p).length = 8 + p.length := by
  simp [frame, length_beBytes]

theorem frame_append_take (p rest : List Nat) : (frame p ++ rest).take 8 = beBytes 8 p.length := by
  rw [frame, List.append_assoc, List.take_left' (length_beBytes 8 p.length)]

theorem frame_append_drop (p rest : List Nat) : (frame p ++ rest).drop 8 = p ++ rest := by
  rw [frame, List.append_assoc, List.drop_left' (length_beBytes 8 p.length)]

theorem parseFramesGo_succ (fuel : Nat) (bs : List Nat) (h : bs ≠ []) :
    parseFramesGo (fuel + 1) bs =
      if bs.length < 8 then none
      else
        let len := beVal (bs.take 8)
        let rest := bs.drop 8
        if rest.length < len then none
        else
          match decodeRecord (rest.take len) with
          | none => none
          | some r => (parseFramesGo fuel (rest.drop len)).map (r :: ·) := by
  cases bs with
  | nil => exact absurd rfl h
  | cons b bs' => rfl

theorem parseFramesGo_fuel : ∀ (f1 : Nat) (bs : List Nat), bs.length < f1 →
    ∀ f2, bs.length < f2 → parseFramesGo f1 bs = parseFramesGo f2 bs := by
  intro f1
  induction f1 with
  | zero => intro bs h; exact absurd h (Nat.not_lt_zero _)
  | succ f ih =>
      intro bs hb f2 hb2
      cases bs with
      | nil =>
          cases f2 with
          | zero => exact absurd hb2 (Nat.not_lt_zero _)
          | succ f2' => rfl
      | cons b bs' =>
          cases f2 with
          | zero => exact absurd hb2 (Nat.not_lt_zero _)
          | succ f2' =>
              rw [parseFramesGo_succ f _ (by simp), parseFramesGo_succ f2' _ (by simp)]
              by_cases h8 : (b :: bs').length < 8
              · rw [if_pos h8, if_pos h8]
              · rw [if_neg h8, if_neg h8]
                simp only
                by_cases hl : ((b :: bs').drop 8).length < beVal ((b :: bs').take 8)
                · rw [if_pos hl, if_pos hl]
                · rw [if_neg hl, if_neg hl]
                  have hXlen : (((b :: bs').drop 8).drop (beVal ((b :: bs').take 8))).length ≤
                      bs'.length := by
                    simp only [List.length_drop, List.length_cons]
                    omega
                  have hblen : bs'.length < f ∧ bs'.length < f2' := by
                    simp only [List.length_cons] at hb hb2
                    omega
                  rw [ih _ (lt_of_le_of_lt hXlen hblen.1) f2' (lt_of_le_of_lt hXlen hblen.2)]

theorem parseFrames_step (p rest : List Nat) (hp : p.length < U64) :
    parseFrames (frame p ++ rest) =
      match decodeRecord p with
      | none => none
      | some r => (parseFrames rest).map (r :: ·) := by
  have hlen : (frame p ++ rest).length = 8 + p.length + rest.length := by
    simp [length_frame]
  have hbv : beVal ((frame p ++ rest).take 8) = p.length := by
    rw [frame_append_take, beVal_beBytes, pow256_8, Nat.mod_eq_of_lt hp]
  have h1 : frame p ++ rest ≠ [] := by
    intro hemp
    exact frame_ne_nil p (List.append_eq_nil.mp hemp).1
  unfold parseFrames
  rw [hlen, parseFramesGo_succ _ _ h1]
  rw [if_neg (by rw [hlen]; omega)]
  simp only [hbv, frame_append_drop]
  rw [if_neg (by rw [List.length_append]; omega)]
  rw [List.take_left, List.drop_left]
  cases hdec : decodeRecord p with
  | none => rfl
  | some r =>
      simp only
      rw [parseFramesGo_fuel (8 + p.length + rest.length) rest (by omega)
        (rest.length + 1) (by omega)]

theorem restoreLoop_nil (l : Log) (i : Nat) : restoreLoop l [] i = .ok l := by
  conv_lhs => rw [restoreLoop]
  simp

theorem restoreLoop_step (l : Log) (p rest : List Nat) (i : Nat) (hp : p.length < U64) :
    restoreLoop l (frame p ++ rest) i =
      match decodeRecord p with
      | none => .error .decodeFail
      | some r =>
          let l1 := if i = 0 then
              Log.Reset { l with config := { l.config with initialOffset := r.offset } }
            else l
          match (l1.Append r).result with
          | .error e => .error e
          | .ok _ => restoreLoop (l1.Append r).log rest (i + 1) := by
  have hlen : (frame p ++ rest).length = 8 + p.length + rest.length := by
    simp [length_frame]
  have hbv : beVal ((frame p ++ rest).take 8) = p.length := by
    rw [frame_append_take, beVal_beBytes, pow256_8, Nat.mod_eq_of_lt hp]
  have h1 : ¬ ((frame p ++ rest).isEmpty = true) := by
    intro hemp
    rw [List.isEmpty_iff] at hemp
    exact frame_ne_nil p (List.append_eq_nil.mp hemp).1
  have h2 : ¬ ((frame p ++ rest).length < 8) := by
    rw [hlen]
    omega
  have h3 : ¬ ((p ++ rest).length < p.length) := by
    rw [List.length_append]
    omega
  conv_lhs => rw [restoreLoop]
  rw [dif_neg h1, dif_neg h2]
  simp only [hbv, frame_append_drop]
  rw [dif_neg h3, List.take_left, List.drop_left]

/-! ### Structural lemmas for append -/

theorem Segment.Append_no_room (s : Segment) (r : Record)
    (h : s.index.mmap.length < s.index.size + entWidth) :
    s.Append r =
      ⟨.error .eof,
       { s with store := ⟨s.store.data ++ frame (encodeRecord { r with offset := s.nextOffset }),
                         s.store.size + (lenWidth + (encodeRecord { r with offset := s.nextOffset }).length)⟩ },
       { r with offset := s.nextOffset }⟩ := by
  simp [Segment.Append, Store.Append, Index.Write, if_pos h, frame, List.append_assoc]

theorem Segment.Append_room (s : Segment) (r : Record)
    (h : ¬ s.index.mmap.length < s.index.size + entWidth) :
    s.Append r =
      ⟨.ok s.nextOffset,
       { s with
         store := ⟨s.store.data ++ frame (encodeRecord { r with offset := s.nextOffset }),
                   s.store.size + (lenWidth + (encodeRecord { r with offset := s.nextOffset }).length)⟩,
         index := ⟨writeBytesAt s.index.mmap s.index.size
                     (beBytes 4 (u64sub s.nextOffset s.baseOffset % U32) ++ beBytes 8 s.store.size),
                   s.index.size + entWidth⟩,
         nextOffset := s.nextOffset + 1 },
       { r with offset := s.nextOffset }⟩ := by
  simp [Segment.Append, Store.Append, Index.Write, if_neg h, frame, List.append_assoc]

theorem Log.Append_of_last (l : Log) (ss : List Segment) (s : Segment) (r : Record)
    (hseg : l.segments = ss ++ [s]) :
    l.Append r =
      match (s.Append r).result with
      | .error e =>
          ⟨.error e, { l with segments := ss ++ [(s.Append r).seg] }, (s.Append r).record⟩
      | .ok off =>
          if (s.Append r).seg.IsMaxed then
            ⟨.ok off, { l with segments :=
                (ss ++ [(s.Append r).seg]) ++ [newSegment l.config (off + 1)] },
              (s.Append r).record⟩
          else
            ⟨.ok off, { l with segments := ss ++ [(s.Append r).seg] }, (s.Append r).record⟩ := by
  simp only [Log.Append, hseg, List.getLast?_concat, List.dropLast_concat, Log.pushSegment]

/-! ### Log navigation lemmas -/

theorem segments_eq_dropLast_append (l : Log) (s : Segment)
    (h : l.segments.getLast? = some s) :
    l.segments = l.segments.dropLast ++ [s] := by
  have hne : l.segments ≠ [] := by
    intro he
    rw [he] at h
    simp at h
  have hlast := List.getLast?_eq_getLast l.segments hne
  rw [hlast] at h
  injection h with h
  rw [← h]
  exact (List.dropLast_append_getLast hne).symm

theorem activeNext_of_last (l : Log) (s : Segment) (h : l.segments.getLast? = some s) :
    l.activeNext = s.nextOffset := by
  unfold Log.activeNext
  rw [h]

/-- A successful log append returns the active segment's `nextOffset`,
and afterwards the active `nextOffset` is one larger (whether or not a
rollover happened). -/
theorem Log.Append_ok_next (l : Log) (r : Record) (o : Nat)
    (h : (l.Append r).result = .ok o) :
    o = l.activeNext ∧ (l.Append r).log.activeNext = l.activeNext + 1 := by
  cases hlast : l.segments.getLast? with
  | none =>
      unfold Log.Append at h
      rw [hlast] at h
      exact absurd h (by simp)
  | some s =>
      have hseg := segments_eq_dropLast_append l s hlast
      have happ := Log.Append_of_last l l.segments.dropLast s r hseg
      have hnext := activeNext_of_last l s hlast
      by_cases hroom : s.index.mmap.length < s.index.size + entWidth
      · rw [Segment.Append_no_room s r hroom] at happ
        rw [happ] at h
        exact absurd h (by simp)
      · rw [Segment.Append_room s r hroom] at happ
        simp only at happ
        rw [happ] at h ⊢
        by_cases hm : Segment.IsMaxed
            { s with
              store := ⟨s.store.data ++ frame (encodeRecord { r with offset := s.nextOffset }),
                        s.store.size + (lenWidth + (encodeRecord { r with offset := s.nextOffset }).length)⟩,
              index := ⟨writeBytesAt s.index.mmap s.index.size
                          (beBytes 4 (u64sub s.nextOffset s.baseOffset % U32) ++ beBytes 8 s.store.size),
                        s.index.size + entWidth⟩,
              nextOffset := s.nextOffset + 1 }
        · rw [if_pos hm] at h ⊢
          simp only at h
          injection h with h
          subst h
          refine ⟨hnext.symm, ?_⟩
          unfold Log.activeNext
          rw [List.getLast?_concat]
          simp [newSegment, hlast]
        · rw [if_neg hm] at h ⊢
          simp only at h
          injection h with h
          subst h
          refine ⟨hnext.symm, ?_⟩
          unfold Log.activeNext
          rw [List.getLast?_concat]
          simp [hlast]

theorem AppendSeq_offsets (rs : List Record) : ∀ (l : Log) (offs : List Nat) (l' : Log),
    l.AppendSeq rs = some (offs, l') →
    offs = List.range' l.activeNext rs.length ∧ l'.activeNext = l.activeNext + rs.length := by
  induction rs with
  | nil =>
      intro l offs l' h
      simp only [Log.AppendSeq] at h
      injection h with h
      injection h with h1 h2
      subst h1
      subst h2
      simp [List.range']
  | cons r rs ih =>
      intro l offs l' h
      simp only [Log.AppendSeq] at h
      cases hres : (l.Append r).result with
      | error e =>
          rw [hres] at h
          exact absurd h (by simp)
      | ok off =>
          rw [hres] at h
          simp only [Option.map_eq_some'] at h
          obtain ⟨p, hp, heq⟩ := h
          obtain ⟨ho, hl⟩ := ih (l.Append r).log p.1 p.2 (by rw [hp])
          obtain ⟨hoff, hnext⟩ := Log.Append_ok_next l r off hres
          injection heq with h1 h2
          subst h1
          subst h2
          constructor
          · rw [ho, hnext, hoff, List.length_cons, List.range'_succ l.activeNext rs.length 1]
          · rw [hl, hnext, List.length_cons]
            omega

theorem chain'_lt_range' (s n : Nat) : List.Chain' (· < ·) (List.range' s n) := by
  induction n generalizing s with
  | zero => simp [List.range']
  | succ n ih =>
      rw [List.range'_succ s n 1]
      cases n with
      | zero => simp [List.range']
      | succ m =>
          rw [List.range'_succ (s + 1) m 1]
          refine List.Chain'.cons (by omega) ?_
          rw [← List.range'_succ (s + 1) m 1]
          exact ih (s + 1)

/-- Case analysis of a successful `Log.Append`: the active segment had
index room, the returned offset is its `nextOffset`, the caller's record
was stamped with that offset, and the new segment list is the old one
with the appended active segment, plus a fresh rollover segment when the
active segment became maxed. -/
theorem Log.Append_ok_cases (l : Log) (r : Record) (o : Nat)
    (h : (l.Append r).result = .ok o) :
    ∃ s, l.segments.getLast? = some s ∧
      ¬ s.index.mmap.length < s.index.size + entWidth ∧
      o = s.nextOffset ∧
      (l.Append r).record = { r with offset := s.nextOffset } ∧
      (l.Append r).log.segments =
        (l.segments.dropLast ++ [(s.Append r).seg]) ++
          (if (s.Append r).seg.IsMaxed then [newSegment l.config (s.nextOffset + 1)] else []) ∧
      (l.Append r).log.config = l.config := by
  cases hlast : l.segments.getLast? with
  | none =>
      unfold Log.Append at h
      rw [hlast] at h
      exact absurd h (by simp)
  | some s =>
      have hseg := segments_eq_dropLast_append l s hlast
      have happ := Log.Append_of_last l l.segments.dropLast s r hseg
      by_cases hroom : s.index.mmap.length < s.index.size + entWidth
      · have hres : (s.Append r).result = .error .eof := by
          rw [Segment.Append_no_room s r hroom]
        rw [hres] at happ
        simp only at happ
        rw [happ] at h
        exact absurd h (by simp)
      · have hres : (s.Append r).result = .ok s.nextOffset := by
          rw [Segment.Append_room s r hroom]
        have hrec : (s.Append r).record = { r with offset := s.nextOffset } := by
          rw [Segment.Append_room s r hroom]
        rw [hres] at happ
        simp only at happ
        refine ⟨s, rfl, hroom, ?_, ?_, ?_, ?_⟩
        · by_cases hm : (s.Append r).seg.IsMaxed <;>
            [rw [if_pos hm] at happ; rw [if_neg hm] at happ] <;>
            rw [happ] at h <;> simp only at h <;> injection h with h <;> exact h.symm
        · by_cases hm : (s.Append r).seg.IsMaxed <;>
            [rw [if_pos hm] at happ; rw [if_neg hm] at happ] <;> rw [happ] <;> exact hrec
        · by_cases hm : (s.Append r).seg.IsMaxed
          · rw [if_pos hm] at happ
            rw [happ, if_pos hm]
          · rw [if_neg hm] at happ
            rw [happ, if_neg hm, List.append_nil]
        · by_cases hm : (s.Append r).seg.IsMaxed <;>
            [rw [if_pos hm] at happ; rw [if_neg hm] at happ] <;> rw [happ]

/-- C3: on a fresh log configured with `initial_offset = 0` every
sequence of successful `Append` calls returns exactly the offsets
`0, 1, 2, …` contiguously, and on any log instance successive successful
`Append` calls return strictly increasing offsets. -/
theorem c3_append_offsets_contiguous :
    (∀ (c : Config) (rs : List Record) (offs : List Nat) (l' : Log),
        c.initialOffset = 0 → (NewLog c).AppendSeq rs = some (offs, l') →
        offs = List.range rs.length) ∧
    (∀ (l : Log) (rs : List Record) (offs : List Nat) (l' : Log),
        l.AppendSeq rs = some (offs, l') → List.Chain' (· < ·) offs) := by
  constructor
  · intro c rs offs l' hinit h
    have h0 : (NewLog c).activeNext = 0 := by
      simp [NewLog, Log.activeNext, newSegment, hinit]
    have hoffs := (AppendSeq_offsets rs _ _ _ h).1
    rw [hoffs, h0, List.range_eq_range']
  · intro l rs offs l' h
    rw [(AppendSeq_offsets rs _ _ _ h).1]
    exact chain'_lt_range' _ _

/-- Witness for C3 at a concrete fresh log: two appends return `[0, 1]`
(`List.range 2`). -/
theorem c3_append_offsets_contiguous_witness :
    ((NewLog ⟨64, 36, 0⟩).AppendSeq [⟨[1], 9, 0, 0⟩, ⟨[2], 9, 0, 0⟩]).map Prod.fst
      = some (List.range 2) := by
  cases hc : (NewLog ⟨64, 36, 0⟩).AppendSeq [⟨[1], 9, 0, 0⟩, ⟨[2], 9, 0, 0⟩] with
  | none => exact absurd hc (by decide)
  | some p =>
      have hp := c3_append_offsets_contiguous.1 ⟨64, 36, 0⟩
        [⟨[1], 9, 0, 0⟩, ⟨[2], 9, 0, 0⟩] p.1 p.2 rfl (by rw [hc])
      rw [Option.map_some', hp]
      rfl

/-- C6: `fsm.Apply` on a committed entry whose one-byte discriminator is
not a known kind (here `1`, with `Append = 0` the only kind) falls
through the switch and returns `nil` with the FSM unchanged — a silent
successful no-op, not the hard failure the spec requires. -/
theorem c6_apply_unknown_kind_silent_noop :
    FSM.Apply ⟨NewLog ⟨0, 0, 0⟩⟩ [1] = some (ApplyResult.nil, ⟨NewLog ⟨0, 0, 0⟩⟩) := by
  rfl

/-- C8: when the index has no room but the store append succeeds,
`segment.Append` returns the no-space error with `nextOffset` and the
index unchanged, while the store has nevertheless grown by
`8 + len(encoded record)` and keeps the encoded bytes appended. -/
theorem c8_append_not_atomic_on_index_full (s : Segment) (r : Record)
    (h : s.index.mmap.length < s.index.size + entWidth) :
    (s.Append r).result = .error .eof ∧
    (s.Append r).seg.nextOffset = s.nextOffset ∧
    (s.Append r).seg.index = s.index ∧
    (s.Append r).seg.store.size =
      s.store.size + (8 + (encodeRecord { r with offset := s.nextOffset }).length) ∧
    (s.Append r).seg.store.data =
      s.store.data ++ frame (encodeRecord { r with offset := s.nextOffset }) := by
  rw [Segment.Append_no_room s r h]
  exact ⟨rfl, rfl, rfl, rfl, rfl⟩

/-- Witness for C8: a fresh segment under `MaxIndexBytes = 0` has no
index room; appending still grows the store while failing. -/
theorem c8_append_not_atomic_on_index_full_witness :
    ((newSegment ⟨16, 0, 5⟩ 5).Append ⟨[1, 2], 9, 9, 9⟩).result = .error .eof ∧
    ((newSegment ⟨16, 0, 5⟩ 5).Append ⟨[1, 2], 9, 9, 9⟩).seg.store.size = 0 + (8 + 30) :=
  ⟨(c8_append_not_atomic_on_index_full (newSegment ⟨16, 0, 5⟩ 5) ⟨[1, 2], 9, 9, 9⟩
      (by decide)).1,
   by
    rw [(c8_append_not_atomic_on_index_full (newSegment ⟨16, 0, 5⟩ 5) ⟨[1, 2], 9, 9, 9⟩
      (by decide)).2.2.2.1]
    decide⟩

/-- C10: `Append` mutates the caller's record in place: the record comes
back with its offset field overwritten by the assigned offset (the
segment's `nextOffset`, equal to the returned offset on success) and no
other field changed. -/
theorem c10_append_mutates_caller_record (l : Log) (s : Segment) (r : Record) (o : Nat) :
    (s.Append r).record = { r with offset := s.nextOffset } ∧
    ((l.Append r).result = .ok o → (l.Append r).record = { r with offset := o }) := by
  constructor
  · by_cases h : s.index.mmap.length < s.index.size + entWidth
    · rw [Segment.Append_no_room s r h]
    · rw [Segment.Append_room s r h]
  · intro h
    obtain ⟨s', _, _, ho, hrec, _, _⟩ := Log.Append_ok_cases l r o h
    rw [hrec, ho]

/-- Witness for C10: a concrete append returning offset `0` hands back
the record with offset `0` and value/term/type untouched. -/
theorem c10_append_mutates_caller_record_witness :
    ((NewLog ⟨64, 36, 0⟩).Append ⟨[5], 7, 8, 9⟩).record = ⟨[5], 0, 8, 9⟩ :=
  (c10_append_mutates_caller_record (NewLog ⟨64, 36, 0⟩) (newSegment ⟨64, 36, 0⟩ 0)
    ⟨[5], 7, 8, 9⟩ 0).2 (by decide)

/-! ### Contiguity lemmas for segment lists -/

theorem chain_next_le_last (ss : List Segment) (h : List.Chain' Contig ss)
    (hb : ∀ s ∈ ss, s.baseOffset ≤ s.nextOffset) (hne : ss ≠ []) :
    ∀ t ∈ ss, t.nextOffset ≤ (ss.getLast hne).nextOffset := by
  induction ss with
  | nil => exact absurd rfl hne
  | cons a rest ih =>
      intro t ht
      cases rest with
      | nil =>
          rcases List.mem_singleton.mp ht with rfl
          exact le_refl _
      | cons b rest' =>
          have hchain := List.chain'_cons.mp h
          have hlast : (a :: b :: rest').getLast hne = (b :: rest').getLast (by simp) :=
            List.getLast_cons (by simp)
          rw [hlast]
          rcases List.mem_cons.mp ht with rfl | hmem
          · have hb2 : t.nextOffset = b.baseOffset := hchain.1
            have : b.nextOffset ≤ ((b :: rest').getLast (by simp)).nextOffset :=
              ih hchain.2 (fun s hs => hb s (List.mem_cons_of_mem _ hs)) (by simp) b
                (List.mem_cons_self b rest')
            have hbb : b.baseOffset ≤ b.nextOffset :=
              hb b (List.mem_cons_of_mem _ (List.mem_cons_self b rest'))
            omega
          · exact ih hchain.2 (fun s hs => hb s (List.mem_cons_of_mem _ hs)) (by simp) t hmem

theorem chain_dropLast_next_le (ss : List Segment) (h : List.Chain' Contig ss)
    (hb : ∀ s ∈ ss, s.baseOffset ≤ s.nextOffset) (hne : ss ≠ []) :
    ∀ t ∈ ss.dropLast, t.nextOffset ≤ (ss.getLast hne).baseOffset := by
  induction ss with
  | nil => exact absurd rfl hne
  | cons a rest ih =>
      intro t ht
      cases rest with
      | nil => simp at ht
      | cons b rest' =>
          have hchain := List.chain'_cons.mp h
          have hlast : (a :: b :: rest').getLast hne = (b :: rest').getLast (by simp) :=
            List.getLast_cons (by simp)
          rw [hlast]
          rw [List.dropLast_cons₂] at ht
          rcases List.mem_cons.mp ht with rfl | hmem
          · -- t = a; a.next = b.base ≤ last.base
            cases rest' with
            | nil =>
                simp only [List.getLast_singleton]
                exact le_of_eq hchain.1
            | cons c rest'' =>
                have hb_in : b ∈ (b :: c :: rest'').dropLast := by
                  rw [List.dropLast_cons₂]
                  exact List.mem_cons_self b _
                have := ih hchain.2 (fun s hs => hb s (List.mem_cons_of_mem _ hs)) (by simp) b hb_in
                have hbb : b.baseOffset ≤ b.nextOffset :=
                  hb b (List.mem_cons_of_mem _ (List.mem_cons_self b _))
                have hab : t.nextOffset = b.baseOffset := hchain.1
                omega
          · exact ih hchain.2 (fun s hs => hb s (List.mem_cons_of_mem _ hs)) (by simp) t hmem

theorem chain_head_base_le (ss : List Segment) (h : List.Chain' Contig ss)
    (hb : ∀ s ∈ ss, s.baseOffset ≤ s.nextOffset) (hne : ss ≠ []) :
    ∀ t ∈ ss, (ss.head hne).baseOffset ≤ t.baseOffset := by
  induction ss with
  | nil => exact absurd rfl hne
  | cons a rest ih =>
      intro t ht
      rw [List.head_cons]
      rcases List.mem_cons.mp ht with rfl | hmem
      · exact le_refl _
      · cases rest with
        | nil => simp at hmem
        | cons b rest' =>
            have hchain := List.chain'_cons.mp h
            have hba : a.baseOffset ≤ a.nextOffset := hb a (List.mem_cons_self a _)
            have hab : a.nextOffset = b.baseOffset := hchain.1
            have := ih hchain.2 (fun s hs => hb s (List.mem_cons_of_mem _ hs)) (by simp) t hmem
            rw [List.head_cons] at this
            omega

theorem chain_coverage (ss : List Segment) (h : List.Chain' Contig ss)
    (hne : ss ≠ []) (off : Nat)
    (hlo : (ss.head hne).baseOffset ≤ off)
    (hhi : off < (ss.getLast hne).nextOffset) :
    ∃ t ∈ ss, t.baseOffset ≤ off ∧ off < t.nextOffset := by
  induction ss with
  | nil => exact absurd rfl hne
  | cons a rest ih =>
      rw [List.head_cons] at hlo
      cases rest with
      | nil =>
          rw [List.getLast_singleton] at hhi
          exact ⟨a, List.mem_cons_self a _, hlo, hhi⟩
      | cons b rest' =>
          have hchain := List.chain'_cons.mp h
          by_cases hin : off < a.nextOffset
          · exact ⟨a, List.mem_cons_self a _, hlo, hin⟩
          · have hge : b.baseOffset ≤ off := by
              have hab : a.nextOffset = b.baseOffset := hchain.1
              omega
            have hlast : (a :: b :: rest').getLast hne = (b :: rest').getLast (by simp) :=
              List.getLast_cons (by simp)
            rw [hlast] at hhi
            obtain ⟨t, htmem, h1, h2⟩ := ih hchain.2 (by simp) (by rw [List.head_cons]; exact hge) hhi
            exact ⟨t, List.mem_cons_of_mem a htmem, h1, h2⟩

/-! ### Accessors for the well-formedness predicates -/

theorem SegWF.config_eq {c : Config} {s : Segment} (h : SegWF c s) : s.config = c := h.1

theorem SegWF.base_le {c : Config} {s : Segment} (h : SegWF c s) :
    s.baseOffset ≤ s.nextOffset := h.2.1

theorem SegWF.next_lt {c : Config} {s : Segment} (h : SegWF c s) : s.nextOffset < U64 :=
  h.2.2.1

theorem SegWF.idx_size {c : Config} {s : Segment} (h : SegWF c s) :
    s.index.size = entWidth * (s.nextOffset - s.baseOffset) := h.2.2.2.1

theorem SegWF.mmap_len {c : Config} {s : Segment} (h : SegWF c s) :
    s.index.mmap.length = c.maxIndexBytes := h.2.2.2.2.1

theorem SegWF.idx_le {c : Config} {s : Segment} (h : SegWF c s) :
    s.index.size ≤ s.index.mmap.length := h.2.2.2.2.2.1

theorem SegWF.store_size {c : Config} {s : Segment} (h : SegWF c s) :
    s.store.size = s.store.data.length := h.2.2.2.2.2.2.1

theorem SegWF.store_lt {c : Config} {s : Segment} (h : SegWF c s) : s.store.size < U64 :=
  h.2.2.2.2.2.2.2.1

theorem SegWF.store_bytes {c : Config} {s : Segment} (h : SegWF c s) :
    ∀ b ∈ s.store.data, b < 256 := h.2.2.2.2.2.2.2.2.1

theorem SegWF.mmap_bytes {c : Config} {s : Segment} (h : SegWF c s) :
    ∀ b ∈ s.index.mmap, b < 256 := h.2.2.2.2.2.2.2.2.2.1

theorem SegWF.parse {c : Config} {s : Segment} (h : SegWF c s) :
    parseFrames s.store.data = some s.recs := h.2.2.2.2.2.2.2.2.2.2.1

theorem SegWF.recs_len {c : Config} {s : Segment} (h : SegWF c s) :
    s.recs.length = s.nextOffset - s.baseOffset := h.2.2.2.2.2.2.2.2.2.2.2.1

theorem SegWF.recs_offset {c : Config} {s : Segment} (h : SegWF c s) :
    ∀ i ∈ List.range s.recs.length, (s.recs.getD i default).offset = s.baseOffset + i :=
  h.2.2.2.2.2.2.2.2.2.2.2.2.1

theorem SegWF.idx_entries {c : Config} {s : Segment} (h : SegWF c s) :
    ∀ i ∈ List.range s.recs.length,
      (s.index.mmap.drop (entWidth * i)).take entWidth =
        beBytes 4 i ++ beBytes 8 (posOf s.recs i) :=
  h.2.2.2.2.2.2.2.2.2.2.2.2.2

/-- C9: on a log whose segments all have nonzero `nextOffset` and which
holds at least one record, `Truncate(lowest)` with `lowest ≥
HighestOffset` removes every segment including the active one; on the
resulting empty segment list `LowestOffset` and `HighestOffset` have no
element to read (`none` models the out-of-bounds indexing), violating
the assumption that at least one segment always exists. -/
theorem c9_truncate_can_empty_log (l : Log) (lowest hi : Nat)
    (hwf : LogWF l)
    (hnz : ∀ s ∈ l.segments, s.nextOffset ≠ 0)
    (hrec : ∃ s ∈ l.segments, s.baseOffset < s.nextOffset)
    (hhi : l.HighestOffset = some hi)
    (hge : hi ≤ lowest) :
    (l.Truncate lowest).segments = [] ∧
    (l.Truncate lowest).LowestOffset = none ∧
    (l.Truncate lowest).HighestOffset = none := by
  obtain ⟨hne, hchain, hsegs, _⟩ := hwf
  have hlast? : l.segments.getLast? = some (l.segments.getLast hne) :=
    List.getLast?_eq_getLast _ hne
  have hlmem : l.segments.getLast hne ∈ l.segments := List.getLast_mem hne
  have hhi' : (l.segments.getLast hne).nextOffset - 1 = hi := by
    unfold Log.HighestOffset at hhi
    rw [hlast?, Option.map_some'] at hhi
    injection hhi with hhi
    rw [if_neg (hnz _ hlmem)] at hhi
    exact hhi
  have hempty : (l.Truncate lowest).segments = [] := by
    unfold Log.Truncate
    simp only
    rw [List.filter_eq_nil_iff]
    intro t ht
    have hle : t.nextOffset ≤ (l.segments.getLast hne).nextOffset :=
      chain_next_le_last l.segments hchain (fun s hs => (hsegs s hs).base_le) hne t ht
    have htnz : t.nextOffset ≠ 0 := hnz t ht
    have htlt : t.nextOffset < U64 := (hsegs t ht).next_lt
    have hsub : u64sub t.nextOffset 1 = t.nextOffset - 1 :=
      u64sub_eq _ _ (by omega) htlt
    simp only [hsub, Bool.not_eq_true', decide_eq_false_iff_not, not_not]
    omega
  refine ⟨hempty, ?_, ?_⟩
  · unfold Log.LowestOffset
    rw [hempty]
    rfl
  · unfold Log.HighestOffset
    rw [hempty]
    rfl

/-- Witness for C9: a fresh log with one appended record, truncated at
its highest offset `0`, ends with an empty segment list. -/
theorem c9_truncate_can_empty_log_witness :
    (((NewLog ⟨64, 36, 0⟩).Append ⟨[5], 0, 0, 0⟩).log.Truncate 0).segments = [] ∧
    (((NewLog ⟨64, 36, 0⟩).Append ⟨[5], 0, 0, 0⟩).log.Truncate 0).LowestOffset = none ∧
    (((NewLog ⟨64, 36, 0⟩).Append ⟨[5], 0, 0, 0⟩).log.Truncate 0).HighestOffset = none :=
  c9_truncate_can_empty_log ((NewLog ⟨64, 36, 0⟩).Append ⟨[5], 0, 0, 0⟩).log 0 0
    (by decide) (by decide) (by decide) (by decide) (by decide)

/-- Counterexample to C5 as stated: a fresh log with two appended
records (offsets 0 and 1) in one segment, truncated at `0`, keeps the
whole segment, so the log is neither empty nor has `LowestOffset > 0` —
retention is by whole segments only, and a segment straddling the
truncation point survives with all its records. -/
theorem c5_truncate_counterexample :
    ((NewLog ⟨64, 36, 0⟩).AppendSeq [⟨[1], 0, 0, 0⟩, ⟨[2], 0, 0, 0⟩]).map
        (fun p => (p.1, (p.2.Truncate 0).segments.isEmpty,
          (p.2.Truncate 0).LowestOffset, (p.2.Truncate 0).hasOffset 0))
      = some ([0, 1], false, some 0, true) := by
  decide

/-- C5 (amended): `Truncate(k)` removes no record whose offset exceeds
`k` — it drops exactly the segments whose `nextOffset − 1 ≤ k` in
`uint64` arithmetic — and afterwards every remaining segment (in
particular the first, when one remains) satisfies `nextOffset − 1 > k`;
`LowestOffset` itself may remain `≤ k` when a surviving segment also
holds offsets at or below `k`. -/
theorem c5_truncate_amended (l : Log) (k : Nat) (hwf : LogWF l) :
    (∀ off, l.hasOffset off = true → k < off → (l.Truncate k).hasOffset off = true) ∧
    (∀ s ∈ (l.Truncate k).segments, k < u64sub s.nextOffset 1) ∧
    ((l.Truncate k).segments = [] ∨
      ∃ s, (l.Truncate k).segments.head? = some s ∧ k < u64sub s.nextOffset 1) := by
  obtain ⟨hne, hchain, hsegs, _⟩ := hwf
  have hkeep : ∀ s ∈ (l.Truncate k).segments, k < u64sub s.nextOffset 1 := by
    intro s hs
    unfold Log.Truncate at hs
    simp only [List.mem_filter, Bool.not_eq_true', decide_eq_false_iff_not] at hs
    omega
  refine ⟨?_, hkeep, ?_⟩
  · intro off hoff hk
    rw [Log.hasOffset, List.any_eq_true] at hoff ⊢
    obtain ⟨t, ht, hpred⟩ := hoff
    simp only [Bool.and_eq_true, decide_eq_true_eq] at hpred
    refine ⟨t, ?_, by simp only [Bool.and_eq_true, decide_eq_true_eq]; exact hpred⟩
    unfold Log.Truncate
    simp only [List.mem_filter, Bool.not_eq_true', decide_eq_false_iff_not]
    refine ⟨ht, ?_⟩
    have htlt : t.nextOffset < U64 := (hsegs t ht).next_lt
    have htnz : t.nextOffset ≠ 0 := by omega
    rw [u64sub_eq _ _ (by omega) htlt]
    omega
  · cases hcase : (l.Truncate k).segments with
    | nil => exact Or.inl rfl
    | cons a rest =>
        refine Or.inr ⟨a, rfl, ?_⟩
        exact hkeep a (by rw [hcase]; exact List.mem_cons_self a rest)

/-- Witness for C5 (amended) at a concrete log: with two records in one
segment, truncating at `0` keeps offset `1` readable and the surviving
segment reaches past the truncation point. -/
theorem c5_truncate_amended_witness :
    ((((NewLog ⟨64, 36, 0⟩).Append ⟨[5], 0, 0, 0⟩).log.Append
        ⟨[6], 0, 0, 0⟩).log.Truncate 0).hasOffset 1 = true :=
  (c5_truncate_amended (((NewLog ⟨64, 36, 0⟩).Append ⟨[5], 0, 0, 0⟩).log.Append
      ⟨[6], 0, 0, 0⟩).log 0 (by decide)).1 1 (by decide) (by decide)

/-- `segment.Read` produces only `io.EOF` or decode errors, never the
`OffsetOutOfRange` error kind. -/
theorem Segment.Read_ne_oor (s : Segment) (off x : Nat) :
    s.Read off ≠ .error (.offsetOutOfRange x) := by
  unfold Segment.Read
  cases h1 : s.index.Read (int64ofU64 (u64sub off s.baseOffset)) with
  | none => simp
  | some pr =>
      obtain ⟨o, pos⟩ := pr
      cases h2 : s.store.Read pos with
      | none => simp [h2]
      | some p =>
          cases h3 : decodeRecord p with
          | none => simp [h2, h3]
          | some r => simp [h2, h3]

/-- `Log.Read` fails with `OffsetOutOfRange` exactly when the segment
scan finds no segment containing the offset. -/
theorem Log.Read_oor_iff_find_none (l : Log) (off : Nat) :
    (l.Read off = .error (.offsetOutOfRange off)) ↔
      l.segments.find?
        (fun s => decide (s.baseOffset ≤ off) && decide (off < s.nextOffset)) = none := by
  unfold Log.Read
  cases hf : l.segments.find?
      (fun s => decide (s.baseOffset ≤ off) && decide (off < s.nextOffset)) with
  | none => simp
  | some s =>
      simp only
      exact iff_of_false (Segment.Read_ne_oor s off off) (by simp)

/-- Counterexample to C2 as stated: on the fresh empty log with
`initial_offset = 0`, `LowestOffset = HighestOffset = 0` (the empty-log
special case of `HighestOffset`), yet `Read(0)` fails with
`OffsetOutOfRange` although `0` is neither above `HighestOffset` nor
below `LowestOffset`. -/
theorem c2_read_empty_log_counterexample :
    (NewLog ⟨0, 0, 0⟩).Read 0 = .error (.offsetOutOfRange 0) ∧
    (NewLog ⟨0, 0, 0⟩).LowestOffset = some 0 ∧
    (NewLog ⟨0, 0, 0⟩).HighestOffset = some 0 := by
  decide

/-- C2 (amended): for a well-formed log whose last segment has nonzero
`nextOffset` (every log except the fresh empty one at initial offset 0),
`Read(off)` fails with `OffsetOutOfRange{off}` iff `off < LowestOffset`
or `off > HighestOffset`; in particular `Read(HighestOffset + 1)` always
fails with that error. -/
theorem c2_read_oor_iff (l : Log) (lastS : Segment) (lo hi off : Nat)
    (hwf : LogWF l)
    (hlast : l.segments.getLast? = some lastS)
    (hnz : lastS.nextOffset ≠ 0)
    (hlo : l.LowestOffset = some lo)
    (hhi : l.HighestOffset = some hi) :
    ((l.Read off = .error (.offsetOutOfRange off)) ↔ (off < lo ∨ hi < off)) ∧
    l.Read (hi + 1) = .error (.offsetOutOfRange (hi + 1)) := by
  obtain ⟨hne, hchain, hsegs, _⟩ := hwf
  have hbases : ∀ s ∈ l.segments, s.baseOffset ≤ s.nextOffset :=
    fun s hs => (hsegs s hs).base_le
  have hlastS : lastS = l.segments.getLast hne := by
    rw [List.getLast?_eq_getLast _ hne] at hlast
    injection hlast with hlast
    exact hlast.symm
  have hlo' : lo = (l.segments.head hne).baseOffset := by
    unfold Log.LowestOffset at hlo
    rw [List.head?_eq_head hne, Option.map_some'] at hlo
    injection hlo with hlo
    exact hlo.symm
  have hhi' : hi = lastS.nextOffset - 1 := by
    unfold Log.HighestOffset at hhi
    rw [hlast, Option.map_some'] at hhi
    injection hhi with hhi
    rw [if_neg hnz] at hhi
    exact hhi.symm
  have hnomatch : ∀ x, lastS.nextOffset ≤ x →
      l.segments.find?
        (fun s => decide (s.baseOffset ≤ x) && decide (x < s.nextOffset)) = none := by
    intro x hx
    rw [List.find?_eq_none]
    intro t ht
    simp only [Bool.and_eq_true, decide_eq_true_eq, not_and, not_lt]
    intro _
    have := chain_next_le_last l.segments hchain hbases hne t ht
    rw [← hlastS] at this
    omega
  constructor
  · constructor
    · intro hread
      by_contra hcon
      push_neg at hcon
      obtain ⟨hc1, hc2⟩ := hcon
      have hfind := (Log.Read_oor_iff_find_none l off).mp hread
      rw [List.find?_eq_none] at hfind
      obtain ⟨t, ht, h1, h2⟩ := chain_coverage l.segments hchain hne off
        (by rw [← hlo']; omega)
        (by rw [← hlastS]; omega)
      exact hfind t ht (by simp only [Bool.and_eq_true, decide_eq_true_eq]; exact ⟨h1, h2⟩)
    · intro hcase
      rw [Log.Read_oor_iff_find_none]
      rw [List.find?_eq_none]
      intro t ht
      simp only [Bool.and_eq_true, decide_eq_true_eq, not_and, not_lt]
      intro hbase
      rcases hcase with hlt | hgt
      · have := chain_head_base_le l.segments hchain hbases hne t ht
        omega
      · have := chain_next_le_last l.segments hchain hbases hne t ht
        rw [← hlastS] at this
        omega
  · rw [Log.Read_oor_iff_find_none]
    exact hnomatch (hi + 1) (by omega)

/-- Witness for C2 (amended) at a concrete log with one record:
`Read(HighestOffset + 1) = Read(1)` fails with `OffsetOutOfRange`. -/
theorem c2_read_oor_iff_witness :
    ((NewLog ⟨64, 36, 0⟩).Append ⟨[5], 0, 0, 0⟩).log.Read (0 + 1) =
      .error (.offsetOutOfRange (0 + 1)) :=
  (c2_read_oor_iff ((NewLog ⟨64, 36, 0⟩).Append ⟨[5], 0, 0, 0⟩).log
      ((newSegment ⟨64, 36, 0⟩ 0).Append ⟨[5], 0, 0, 0⟩).seg 0 0 1
      (by decide) (by decide) (by decide) (by decide) (by decide)).2

/-- `index.Read` at a nonnegative in-range relative offset `n < 2^32`
reads back the 12-byte entry at byte position `n * entWidth`. -/
theorem Index.Read_ofNat (i : Index) (n : Nat) (hn : n < U32)
    (hsz : n * entWidth + entWidth ≤ i.size) :
    i.Read (n : Int) = some (beVal ((i.mmap.drop (n * entWidth)).take 4),
                             beVal ((i.mmap.drop (n * entWidth + 4)).take 8)) := by
  have he : entWidth = 12 := rfl
  unfold Index.Read
  rw [if_neg (by omega)]
  simp only
  rw [if_neg (by omega : ¬ (n : Int) = -1)]
  have hemod : ((n : Int).emod (U32 : Int)).toNat = n := by
    have h1 : (n : Int).emod (U32 : Int) = ((n % U32 : Nat) : Int) := by
      push_cast
      rfl
    rw [h1, Int.toNat_natCast, Nat.mod_eq_of_lt hn]
  rw [hemod, if_neg (by omega)]

/-- C1: a record appended through `Log.Append` with returned offset `O`
is read back by `Log.Read(O)` on the resulting log, and the value bytes
survive the encode / index-lookup / decode round trip. -/
theorem c1_append_then_read_value (l : Log) (r : Record) (o : Nat)
    (hwf : LogWF l)
    (hv : 28 + r.value.length < U64)
    (h : (l.Append r).result = .ok o) :
    ∃ rec, (l.Append r).log.Read o = .ok rec ∧ rec.value = r.value := by
  obtain ⟨s, hlast, hroom, ho, hrec, hsegs', hconf⟩ := Log.Append_ok_cases l r o h
  subst ho
  obtain ⟨hne, hchain, hsegwf, hsane⟩ := hwf
  have hmem : s ∈ l.segments := by
    rw [segments_eq_dropLast_append l s hlast]
    exact List.mem_append_right _ (List.mem_singleton.mpr rfl)
  have hs := hsegwf s hmem
  have he : entWidth = 12 := rfl
  have hplen : (encodeRecord { r with offset := s.nextOffset }).length = 28 + r.value.length :=
    length_encodeRecord _
  set n : Nat := s.nextOffset - s.baseOffset with hn
  have hidx : s.index.size = 12 * n := by
    rw [hs.idx_size, he]
  have hroom' : s.index.size + 12 ≤ s.index.mmap.length := by omega
  have hnlt : n < U32 := by
    have h1 := hs.mmap_len
    rw [he] at hsane
    omega
  have hn63 : n < 2 ^ 63 := by
    have : U32 < 2 ^ 63 := by norm_num [U32]
    omega
  have hseg' := Segment.Append_room s r hroom
  have husub : u64sub s.nextOffset s.baseOffset = n :=
    u64sub_eq _ _ hs.base_le hs.next_lt
  have hsegbase : (s.Append r).seg.baseOffset = s.baseOffset := by rw [hseg']
  have hsegnext : (s.Append r).seg.nextOffset = s.nextOffset + 1 := by rw [hseg']
  have hsegidx : (s.Append r).seg.index =
      ⟨writeBytesAt s.index.mmap s.index.size
          (beBytes 4 n ++ beBytes 8 s.store.size), s.index.size + entWidth⟩ := by
    rw [hseg']
    simp only
    rw [husub, Nat.mod_eq_of_lt hnlt]
  have hsegstore : (s.Append r).seg.store =
      ⟨s.store.data ++ frame (encodeRecord { r with offset := s.nextOffset }),
       s.store.size + (lenWidth + (encodeRecord { r with offset := s.nextOffset }).length)⟩ := by
    rw [hseg']
  -- the read scan finds the appended segment
  have hfind : (l.Append r).log.segments.find?
      (fun t => decide (t.baseOffset ≤ s.nextOffset) && decide (s.nextOffset < t.nextOffset)) =
      some (s.Append r).seg := by
    rw [hsegs', List.append_assoc]
    rw [find?_append_of_none _ _ _ ?hnone]
    case hnone =>
      intro t ht
      have hle := chain_dropLast_next_le l.segments hchain
        (fun u hu => (hsegwf u hu).base_le) hne t ht
      have hbase : l.segments.getLast hne = s := by
        rw [List.getLast?_eq_getLast _ hne] at hlast
        injection hlast
      rw [hbase] at hle
      have hbs := hs.base_le
      simp only [Bool.and_eq_true, decide_eq_true_eq, not_and, not_lt]
      intro _
      omega
    rw [List.singleton_append, List.find?_cons_of_pos]
    simp only [Bool.and_eq_true, decide_eq_true_eq, hsegbase, hsegnext]
    exact ⟨hs.base_le, by omega⟩
  -- index read-back of the just-written entry
  have hsz12 : n * entWidth + entWidth ≤ (s.Append r).seg.index.size := by
    rw [hsegidx]
    simp only
    rw [he]
    omega
  have hfit : s.index.size + (beBytes 4 n ++ beBytes 8 s.store.size).length ≤
      s.index.mmap.length := by
    simp only [List.length_append, length_beBytes]
    omega
  have h12 := writeBytesAt_drop_take s.index.mmap s.index.size
    (beBytes 4 n ++ beBytes 8 s.store.size) hfit
  have hlen12 : (beBytes 4 n ++ beBytes 8 s.store.size).length = 12 := by
    simp [length_beBytes]
  rw [hlen12] at h12
  have hparts := slice12_parts _ _ _ (length_beBytes 4 n) (length_beBytes 8 s.store.size) h12
  have hposeq : n * entWidth = s.index.size := by
    rw [hidx, he, Nat.mul_comm]
  have hread1 : (s.Append r).seg.index.Read (n : Int) = some (n, s.store.size) := by
    rw [Index.Read_ofNat _ n hnlt hsz12, hsegidx]
    simp only
    rw [hposeq]
    have hd4 : (writeBytesAt s.index.mmap s.index.size
        (beBytes 4 n ++ beBytes 8 s.store.size)).drop (s.index.size + 4) =
        ((writeBytesAt s.index.mmap s.index.size
          (beBytes 4 n ++ beBytes 8 s.store.size)).drop s.index.size).drop 4 :=
      (List.drop_drop 4 s.index.size _).symm
    rw [hd4, hparts.1, hparts.2, beVal_beBytes, beVal_beBytes, pow256_4, pow256_8,
      Nat.mod_eq_of_lt hnlt, Nat.mod_eq_of_lt hs.store_lt]
  -- store read-back of the just-appended frame
  have hstore : (s.Append r).seg.store.Read s.store.size =
      some (encodeRecord { r with offset := s.nextOffset }) := by
    rw [hsegstore]
    unfold Store.Read
    simp only
    have hdropfr : (s.store.data ++ frame (encodeRecord { r with offset := s.nextOffset })).drop
        s.store.size = frame (encodeRecord { r with offset := s.nextOffset }) := by
      rw [hs.store_size, List.drop_left]
    have hlenfr : (s.store.data ++ frame (encodeRecord { r with offset := s.nextOffset })).length =
        s.store.data.length + (8 + (28 + r.value.length)) := by
      simp [length_frame, hplen]
    have htake8 : (frame (encodeRecord { r with offset := s.nextOffset })).take 8 =
        beBytes 8 (encodeRecord { r with offset := s.nextOffset }).length := by
      rw [frame, List.take_left' (length_beBytes 8 _)]
    have hbval : beVal ((frame (encodeRecord { r with offset := s.nextOffset })).take 8) =
        28 + r.value.length := by
      rw [htake8, beVal_beBytes, pow256_8, hplen, Nat.mod_eq_of_lt hv]
    rw [if_pos (by rw [hlenfr, ← hs.store_size]; omega)]
    rw [hdropfr, hbval]
    rw [if_pos (by rw [hlenfr, ← hs.store_size]; omega)]
    have hdrop8 : (s.store.data ++ frame (encodeRecord { r with offset := s.nextOffset })).drop
        (s.store.size + 8) = encodeRecord { r with offset := s.nextOffset } := by
      have hdd : (s.store.data ++ frame (encodeRecord { r with offset := s.nextOffset })).drop
          (s.store.size + 8) =
          ((s.store.data ++ frame (encodeRecord { r with offset := s.nextOffset })).drop
            s.store.size).drop 8 := (List.drop_drop 8 s.store.size _).symm
      rw [hdd, hdropfr, frame, List.drop_left' (length_beBytes 8 _)]
    rw [hdrop8, ← hplen, List.take_length]
  -- decode of the read-back bytes
  have hvlt : ({ r with offset := s.nextOffset } : Record).value.length < U64 := by
    simp only
    omega
  have hdec := decode_encodeRecord { r with offset := s.nextOffset } hvlt
  -- assemble
  have hlr : (l.Append r).log.Read s.nextOffset = (s.Append r).seg.Read s.nextOffset := by
    unfold Log.Read
    rw [hfind]
  rw [hlr]
  unfold Segment.Read
  rw [hsegbase, husub, int64ofU64_small n hn63, hread1]
  simp only
  rw [hstore]
  simp only
  rw [hdec]
  exact ⟨_, rfl, rfl⟩

/-- Witness for C1: appending `value = [5]` to a fresh well-formed log
returns offset 0 and reading offset 0 yields value `[5]`. -/
theorem c1_append_then_read_value_witness :
    ∃ rec, ((NewLog ⟨64, 36, 0⟩).Append ⟨[5], 3, 4, 5⟩).log.Read 0 = .ok rec ∧
      rec.value = [5] :=
  c1_append_then_read_value (NewLog ⟨64, 36, 0⟩) ⟨[5], 3, 4, 5⟩ 0
    (by decide) (by decide) (by decide)

/-- Total store bytes consumed by appending the records `rs`:
each append writes an 8-byte length prefix plus the 28-byte encoded
header plus the value bytes (the assigned offset does not change the
encoded length). -/
def framesLen (rs : List Record) : Nat :=
  (rs.map (fun r => 36 + r.value.length)).sum

theorem framesLen_cons (r : Record) (rs : List Record) :
    framesLen (r :: rs) = 36 + r.value.length + framesLen rs := by
  simp [framesLen]

theorem writeBytesAt_length (m : List Nat) (pos : Nat) (bs : List Nat)
    (h : pos + bs.length ≤ m.length) :
    (writeBytesAt m pos bs).length = m.length := by
  rw [writeBytesAt_eq]
  simp only [List.length_append, List.length_take, List.length_drop]
  omega

/-- Filling a single-segment log whose index cap is `12 * N`: the
remaining appends all succeed on the same segment, the last one leaves
it maxed, and a fresh rollover segment is installed after it. -/
theorem c4_core (N : Nat) (rs : List Record) : ∀ (l : Log) (s : Segment) (k : Nat),
    l.segments = [s] →
    s.config = l.config →
    l.config.maxIndexBytes = 12 * N →
    s.index.mmap.length = 12 * N →
    s.index.size = 12 * k →
    k + rs.length = N →
    rs ≠ [] →
    s.store.size + framesLen rs < l.config.maxStoreBytes →
    ∃ sfin, l.AppendSeq rs = some (List.range' s.nextOffset rs.length,
        { config := l.config,
          segments := [sfin, newSegment l.config (s.nextOffset + rs.length)] }) ∧
      sfin.baseOffset = s.baseOffset ∧ sfin.nextOffset = s.nextOffset + rs.length ∧
      sfin.IsMaxed = true ∧ sfin.config = l.config := by
  induction rs with
  | nil => intro l s k _ _ _ _ _ _ hnil _; exact absurd rfl hnil
  | cons r rs ih =>
      intro l s k hsegs hconf hmaxI hmmap hsize hcount _ hcap
      have he : entWidth = 12 := rfl
      have hkN : k < N := by
        have : (r :: rs).length = rs.length + 1 := by simp
        omega
      have hroom : ¬ s.index.mmap.length < s.index.size + entWidth := by
        rw [hmmap, hsize, he]
        omega
      have hseg0 : l.segments = [] ++ [s] := by rw [hsegs]; rfl
      have happ := Log.Append_of_last l [] s r hseg0
      have hres : (s.Append r).result = .ok s.nextOffset := by
        rw [Segment.Append_room s r hroom]
      have hsr := Segment.Append_room s r hroom
      have hplen : (encodeRecord { r with offset := s.nextOffset }).length =
          28 + r.value.length := length_encodeRecord _
      have hsegidxsize : (s.Append r).seg.index.size = 12 * (k + 1) := by
        rw [hsr]
        simp only
        rw [hsize, he]
        ring
      have hsegmmap : (s.Append r).seg.index.mmap.length = 12 * N := by
        rw [hsr]
        simp only
        rw [writeBytesAt_length _ _ _ (by
          simp only [List.length_append, length_beBytes]
          rw [hmmap, hsize]
          omega)]
        exact hmmap
      have hsegstoresize : (s.Append r).seg.store.size =
          s.store.size + (36 + r.value.length) := by
        rw [hsr]
        simp only
        rw [hplen]
        have hl8 : lenWidth = 8 := rfl
        omega
      have hsegbase : (s.Append r).seg.baseOffset = s.baseOffset := by rw [hsr]
      have hsegnext : (s.Append r).seg.nextOffset = s.nextOffset + 1 := by rw [hsr]
      have hsegconf : (s.Append r).seg.config = l.config := by rw [hsr]; exact hconf
      have hstorelt : (s.Append r).seg.store.size + framesLen rs < l.config.maxStoreBytes := by
        rw [hsegstoresize]
        rw [framesLen_cons] at hcap
        omega
      cases rs with
      | nil =>
          -- last append: the segment becomes maxed and rollover installs a
          -- fresh segment at the returned offset + 1
          have hkN1 : k + 1 = N := by
            have : (r :: ([] : List Record)).length = 1 := rfl
            omega
          have hmax : (s.Append r).seg.IsMaxed = true := by
            unfold Segment.IsMaxed
            rw [hsegconf, hsegidxsize, hmaxI, hkN1]
            simp
          rw [hres] at happ
          simp only at happ
          rw [if_pos hmax] at happ
          refine ⟨(s.Append r).seg, ?_, hsegbase, ?_, hmax, hsegconf⟩
          · unfold Log.AppendSeq
            rw [happ]
            simp only
            unfold Log.AppendSeq
            rw [Option.map_some']
            simp [List.range']
          · rw [hsegnext]
            rfl
      | cons r2 rs2 =>
          have hkN2 : k + 1 < N := by
            have : (r :: r2 :: rs2).length = rs2.length + 2 := by simp
            omega
          have hnomax : (s.Append r).seg.IsMaxed = false := by
            unfold Segment.IsMaxed
            rw [hsegconf, hsegidxsize, hmaxI, hsegstoresize]
            rw [framesLen_cons] at hcap
            simp only [Bool.or_eq_false_iff, decide_eq_false_iff_not, not_le]
            constructor
            · omega
            · omega
          rw [hres] at happ
          simp only at happ
          rw [if_neg (by rw [hnomax]; simp)] at happ
          -- the new single-segment log for the induction hypothesis
          obtain ⟨sfin, hseq, hb, hx, hm, hc⟩ := ih
            { l with segments := [] ++ [(s.Append r).seg] } (s.Append r).seg (k + 1)
            (by simp) (hsegconf) hmaxI hsegmmap hsegidxsize
            (by simp at hcount ⊢; omega) (by simp) hstorelt
          refine ⟨sfin, ?_, by rw [hb, hsegbase], ?_, hm, hc⟩
          · unfold Log.AppendSeq
            rw [happ]
            simp only
            rw [hseq, Option.map_some']
            have hlen : (r :: r2 :: rs2).length = (r2 :: rs2).length + 1 := by simp
            rw [hlen, List.range'_succ s.nextOffset ((r2 :: rs2).length) 1]
            rw [hsegnext]
            have hoff : s.nextOffset + 1 + (r2 :: rs2).length =
                s.nextOffset + ((r2 :: rs2).length + 1) := by omega
            rw [hoff]
          · rw [hx, hsegnext]
            have : (r :: r2 :: rs2).length = (r2 :: rs2).length + 1 := by simp
            omega

/-- C4: on a fresh log with `initial_offset = 0` and `MaxIndexBytes =
12 * N` (store cap large enough), `N` successful appends leave the
segment that received them maxed, with a newly created active segment
of `base_offset = N` installed; the `(N+1)`-th append succeeds, returns
offset `N`, and lands on that new segment. -/
theorem c4_segment_rollover (N : Nat) (rs : List Record) (c : Config) (rnext : Record)
    (hN : 1 ≤ N)
    (hlen : rs.length = N)
    (hcfg : c.maxIndexBytes = 12 * N)
    (hinit : c.initialOffset = 0)
    (hstore0 : c.maxStoreBytes ≠ 0)
    (hcap : framesLen rs < c.maxStoreBytes) :
    ∃ sfin,
      (NewLog c).AppendSeq rs =
        some (List.range N, { config := c, segments := [sfin, newSegment c N] }) ∧
      sfin.baseOffset = 0 ∧ sfin.nextOffset = N ∧ sfin.IsMaxed = true ∧
      (({ config := c, segments := [sfin, newSegment c N] } : Log).Append rnext).result =
        .ok N ∧
      ∃ s1, (({ config := c, segments := [sfin, newSegment c N] } : Log).Append
          rnext).log.segments.get? 1 = some s1 ∧
        s1.baseOffset = N ∧ s1.nextOffset = N + 1 := by
  have hmaxI0 : c.maxIndexBytes ≠ 0 := by omega
  have hNL : NewLog c = { config := c, segments := [newSegment c c.initialOffset] } := by
    unfold NewLog
    simp only [if_neg hstore0, if_neg hmaxI0]
  have hrsne : rs ≠ [] := by
    intro hrs
    rw [hrs] at hlen
    simp at hlen
    omega
  obtain ⟨sfin, hseq, hb, hx, hm, hc⟩ := c4_core N rs
    { config := c, segments := [newSegment c c.initialOffset] }
    (newSegment c c.initialOffset) 0
    rfl rfl hcfg (by simp [newSegment, hcfg]) (by simp [newSegment]) (by omega) hrsne
    (by simp [newSegment]; omega)
  have hnext0 : (newSegment c c.initialOffset).nextOffset = 0 := by
    simp [newSegment, hinit]
  have hbase0 : (newSegment c c.initialOffset).baseOffset = 0 := by
    simp [newSegment, hinit]
  rw [hnext0] at hseq hx
  rw [hbase0] at hb
  rw [hlen] at hseq hx
  simp only [Nat.zero_add] at hseq hx
  refine ⟨sfin, ?_, hb, hx, hm, ?_, ?_⟩
  · rw [hNL, hseq, List.range_eq_range']
  · -- the (N+1)-th append on the rolled-over log
    have hseg2 : ({ config := c, segments := [sfin, newSegment c N] } : Log).segments =
        [sfin] ++ [newSegment c N] := rfl
    have happ2 := Log.Append_of_last _ [sfin] (newSegment c N) rnext hseg2
    have hroom2 : ¬ (newSegment c N).index.mmap.length <
        (newSegment c N).index.size + entWidth := by
      simp [newSegment, hcfg]
      have he : entWidth = 12 := rfl
      omega
    have hres2 : ((newSegment c N).Append rnext).result = .ok (newSegment c N).nextOffset := by
      rw [Segment.Append_room _ _ hroom2]
    rw [hres2] at happ2
    simp only at happ2
    have hnext2 : (newSegment c N).nextOffset = N := rfl
    rw [happ2]
    by_cases hm2 : ((newSegment c N).Append rnext).seg.IsMaxed
    · rw [if_pos hm2]
      simp only [hnext2]
    · rw [if_neg hm2]
      simp only [hnext2]
  · have hseg2 : ({ config := c, segments := [sfin, newSegment c N] } : Log).segments =
        [sfin] ++ [newSegment c N] := rfl
    have happ2 := Log.Append_of_last _ [sfin] (newSegment c N) rnext hseg2
    have hroom2 : ¬ (newSegment c N).index.mmap.length <
        (newSegment c N).index.size + entWidth := by
      simp [newSegment, hcfg]
      have he : entWidth = 12 := rfl
      omega
    have hres2 : ((newSegment c N).Append rnext).result = .ok (newSegment c N).nextOffset := by
      rw [Segment.Append_room _ _ hroom2]
    have hsr2 := Segment.Append_room (newSegment c N) rnext hroom2
    have hb2 : ((newSegment c N).Append rnext).seg.baseOffset = N := by
      rw [hsr2]
      rfl
    have hx2 : ((newSegment c N).Append rnext).seg.nextOffset = N + 1 := by
      rw [hsr2]
      rfl
    rw [hres2] at happ2
    simp only at happ2
    refine ⟨((newSegment c N).Append rnext).seg, ?_, hb2, hx2⟩
    rw [happ2]
    by_cases hm2 : ((newSegment c N).Append rnext).seg.IsMaxed
    · rw [if_pos hm2]
      rfl
    · rw [if_neg hm2]
      rfl

/-- Witness for C4 with `N = 2`: two appends max out a 24-byte index,
roll to a fresh segment with base 2, and the third append returns 2. -/
theorem c4_segment_rollover_witness :
    ∃ sfin,
      (NewLog ⟨200, 24, 0⟩).AppendSeq [⟨[1], 0, 0, 0⟩, ⟨[2], 0, 0, 0⟩] =
        some (List.range 2,
          { config := ⟨200, 24, 0⟩, segments := [sfin, newSegment ⟨200, 24, 0⟩ 2] }) ∧
      sfin.baseOffset = 0 ∧ sfin.nextOffset = 2 ∧ sfin.IsMaxed = true ∧
      (({ config := ⟨200, 24, 0⟩, segments := [sfin, newSegment ⟨200, 24, 0⟩ 2] } : Log).Append
          ⟨[3], 0, 0, 0⟩).result = .ok 2 ∧
      ∃ s1, (({ config := ⟨200, 24, 0⟩, segments := [sfin, newSegment ⟨200, 24, 0⟩ 2] } : Log).Append
          ⟨[3], 0, 0, 0⟩).log.segments.get? 1 = some s1 ∧
        s1.baseOffset = 2 ∧ s1.nextOffset = 2 + 1 :=
  c4_segment_rollover 2 [⟨[1], 0, 0, 0⟩, ⟨[2], 0, 0, 0⟩] ⟨200, 24, 0⟩ ⟨[3], 0, 0, 0⟩
    (by decide) (by decide) (by decide) (by decide) (by decide) (by decide)

/-! ### Soundness of frame parsing -/

/-- Canonical record: every numeric field fits its machine width and the
value bytes are real bytes. -/
def RecCanon (r : Record) : Prop :=
  r.offset < U64 ∧ r.term < U64 ∧ r.type < U32 ∧ 28 + r.value.length < U64 ∧
    (∀ b ∈ r.value, b < 256)

theorem framesOf_nil : framesOf [] = [] := rfl

theorem framesOf_cons (r : Record) (rs : List Record) :
    framesOf (r :: rs) = frame (encodeRecord r) ++ framesOf rs := by
  simp [framesOf]

theorem framesOf_append (xs ys : List Record) :
    framesOf (xs ++ ys) = framesOf xs ++ framesOf ys := by
  simp [framesOf]

/-- A successful parse of real bytes recovers exactly the frame
concatenation of canonical records. -/
theorem parse_sound (m : Nat) : ∀ (bs : List Nat) (rs : List Record), bs.length ≤ m →
    parseFrames bs = some rs → (∀ b ∈ bs, b < 256) →
    bs = framesOf rs ∧ ∀ r ∈ rs, RecCanon r := by
  induction m with
  | zero =>
      intro bs rs hm hp _
      have hnil : bs = [] := List.length_eq_zero.mp (by omega)
      subst hnil
      rw [parseFrames_nil] at hp
      injection hp with hp
      subst hp
      exact ⟨rfl, by simp⟩
  | succ m ih =>
      intro bs rs hm hp hb
      cases hbs : bs with
      | nil =>
          subst hbs
          rw [parseFrames_nil] at hp
          injection hp with hp
          subst hp
          exact ⟨rfl, by simp⟩
      | cons b0 bs' =>
          subst hbs
          unfold parseFrames at hp
          rw [parseFramesGo_succ _ _ (by simp)] at hp
          by_cases h8 : (b0 :: bs').length < 8
          · rw [if_pos h8] at hp
            exact absurd hp (by simp)
          · rw [if_neg h8] at hp
            simp only at hp
            by_cases hl : ((b0 :: bs').drop 8).length < beVal ((b0 :: bs').take 8)
            · rw [if_pos hl] at hp
              exact absurd hp (by simp)
            · rw [if_neg hl] at hp
              cases hdec : decodeRecord (((b0 :: bs').drop 8).take (beVal ((b0 :: bs').take 8))) with
              | none =>
                  rw [hdec] at hp
                  exact absurd hp (by simp)
              | some r =>
                  rw [hdec] at hp
                  simp only [Option.map_eq_some'] at hp
                  obtain ⟨rs', hgo, hrs⟩ := hp
                  subst hrs
                  -- abbreviations
                  have hlen8 : ((b0 :: bs').take 8).length = 8 := by
                    rw [List.length_take]
                    omega
                  have hblob : (((b0 :: bs').drop 8).take (beVal ((b0 :: bs').take 8))).length =
                      beVal ((b0 :: bs').take 8) := by
                    rw [List.length_take]
                    omega
                  have hbsub : ∀ x ∈ ((b0 :: bs').drop 8).take (beVal ((b0 :: bs').take 8)),
                      x < 256 :=
                    fun x hx => hb x (List.drop_subset 8 _ (List.take_subset _ _ hx))
                  obtain ⟨henc, hoff, hterm, hty, hvl, hvb⟩ :=
                    decodeRecord_some _ r hdec hbsub
                  have hlenU : beVal ((b0 :: bs').take 8) < U64 := by
                    have := beVal_lt ((b0 :: bs').take 8)
                      (fun x hx => hb x (List.take_subset _ _ hx))
                    rw [hlen8, pow256_8] at this
                    exact this
                  -- the remaining bytes parse to rs' by the fuel-independence
                  have hrest : parseFrames (((b0 :: bs').drop 8).drop
                      (beVal ((b0 :: bs').take 8))) = some rs' := by
                    unfold parseFrames
                    rw [← hgo]
                    refine parseFramesGo_fuel _ _ ?_ _ ?_
                    · simp only [List.length_drop, List.length_cons]
                      omega
                    · simp only [List.length_drop, List.length_cons] at h8 ⊢
                      omega
                  obtain ⟨hrec, hcanon⟩ := ih (((b0 :: bs').drop 8).drop
                      (beVal ((b0 :: bs').take 8))) rs'
                    (by simp only [List.length_drop, List.length_cons] at hm h8 ⊢; omega)
                    hrest
                    (fun x hx => hb x (List.drop_subset 8 _ (List.drop_subset _ _ hx)))
                  refine ⟨?_, ?_⟩
                  · -- reassemble the byte string as frame ++ rest
                    have htake8 := beBytes_beVal ((b0 :: bs').take 8)
                      (fun x hx => hb x (List.take_subset _ _ hx))
                    rw [hlen8] at htake8
                    have hlenr : (encodeRecord r).length = beVal ((b0 :: bs').take 8) := by
                      rw [← henc]
                      exact hblob
                    rw [framesOf_cons, ← hrec, frame, hlenr, htake8, ← henc]
                    rw [List.append_assoc, List.take_append_drop, List.take_append_drop]
                  · intro x hx
                    rcases List.mem_cons.mp hx with rfl | hxmem
                    · exact ⟨hoff, hterm, hty, by omega, hvb⟩
                    · exact hcanon x hxmem

theorem range'_append_nat (a m n : Nat) :
    List.range' a m ++ List.range' (a + m) n = List.range' a (m + n) := by
  have h := List.range'_append a m n 1
  rw [Nat.one_mul] at h
  rw [h, Nat.add_comm n m]

theorem map_offset_range' : ∀ (rs : List Record) (b : Nat),
    (∀ i ∈ List.range rs.length, (rs.getD i default).offset = b + i) →
    rs.map Record.offset = List.range' b rs.length := by
  intro rs
  induction rs with
  | nil => intro b _; simp [List.range']
  | cons r rs ih =>
      intro b h
      have h0 : r.offset = b := by
        have := h 0 (by simp)
        simpa using this
      have htail : ∀ i ∈ List.range rs.length, (rs.getD i default).offset = (b + 1) + i := by
        intro i hi
        simp only [List.mem_range] at hi
        have := h (i + 1) (by simp; omega)
        simp only [List.getD_cons_succ] at this
        omega
      rw [List.map_cons, ih (b + 1) htail, List.length_cons,
        List.range'_succ b rs.length 1, h0]

theorem framesOf_flatten (L : List (List Record)) :
    framesOf L.flatten = (L.map framesOf).flatten := by
  induction L with
  | nil => rfl
  | cons x xs ih => simp [framesOf_append, ih]

/-- The records of the whole log, in order. -/
def Log.allRecs (l : Log) : List Record := (l.segments.map Segment.recs).flatten

theorem SegWF.store_frames {c : Config} {s : Segment} (h : SegWF c s) :
    s.store.data = framesOf s.recs ∧ ∀ r ∈ s.recs, RecCanon r :=
  parse_sound s.store.data.length s.store.data s.recs (le_refl _) h.parse h.store_bytes

theorem SegWF.offsets_map {c : Config} {s : Segment} (h : SegWF c s) :
    s.recs.map Record.offset = List.range' s.baseOffset s.recs.length :=
  map_offset_range' s.recs s.baseOffset h.recs_offset

/-- The reader stream of a well-formed log is the frame concatenation of
all its records. -/
theorem LogWF.reader_frames {l : Log} (hwf : LogWF l) :
    l.Reader = framesOf l.allRecs := by
  unfold Log.Reader Log.allRecs
  rw [framesOf_flatten, List.map_map]
  congr 1
  exact List.map_congr_left fun s hs => ((hwf.2.2.1 s hs).store_frames).1

theorem LogWF.allRecs_canon {l : Log} (hwf : LogWF l) :
    ∀ r ∈ l.allRecs, RecCanon r := by
  intro r hr
  unfold Log.allRecs at hr
  rw [List.mem_flatten] at hr
  obtain ⟨recs, hmem, hrin⟩ := hr
  rw [List.mem_map] at hmem
  obtain ⟨s, hs, hrec⟩ := hmem
  exact ((hwf.2.2.1 s hs).store_frames).2 r (hrec ▸ hrin)

/-- The offsets of a well-formed log's records are consecutive from the
first segment's base offset. -/
theorem recs_offsets_chain (c : Config) : ∀ (ss : List Segment),
    List.Chain' Contig ss → (∀ s ∈ ss, SegWF c s) → ∀ (hne : ss ≠ []),
    ((ss.map Segment.recs).flatten).map Record.offset =
      List.range' (ss.head hne).baseOffset ((ss.map Segment.recs).flatten).length := by
  intro ss
  induction ss with
  | nil => intro _ _ hne; exact absurd rfl hne
  | cons s rest ih =>
      intro hchain hsegs hne
      cases rest with
      | nil =>
          simp only [List.map_cons, List.map_nil, List.flatten_cons, List.flatten_nil,
            List.append_nil, List.head_cons]
          exact (hsegs s (List.mem_cons_self s _)).offsets_map
      | cons s2 rest2 =>
          have hchain' := List.chain'_cons.mp hchain
          have hcontig : s.nextOffset = s2.baseOffset := hchain'.1
          have hs := hsegs s (List.mem_cons_self s _)
          have hih := ih hchain'.2 (fun u hu => hsegs u (List.mem_cons_of_mem _ hu)) (by simp)
          rw [List.head_cons] at hih
          simp only [List.map_cons, List.flatten_cons, List.head_cons] at hih ⊢
          rw [List.map_append, hs.offsets_map, hih]
          have hlen : s.baseOffset + s.recs.length = s2.baseOffset := by
            have h1 := hs.recs_len
            have h2 := hs.base_le
            omega
          rw [← hlen, range'_append_nat]
          congr 1
          simp [List.length_append]

/-- The active (last) segment has the log's configuration, a full-size
index map, a 12-byte-aligned index size, and room for one more index
entry.  Every log this development appends into satisfies it, and
`Log.Append` preserves it. -/
def GoodTail (l : Log) : Prop :=
  ∃ ss s, l.segments = ss ++ [s] ∧ s.config = l.config ∧
    s.index.mmap.length = l.config.maxIndexBytes ∧
    entWidth ∣ s.index.size ∧
    s.index.size + entWidth ≤ l.config.maxIndexBytes

theorem Append_goodtail (l : Log) (r : Record)
    (hgt : GoodTail l) (hdvd : entWidth ∣ l.config.maxIndexBytes) :
    (l.Append r).result = .ok l.activeNext ∧
    (l.Append r).log.activeNext = l.activeNext + 1 ∧
    (l.Append r).log.config = l.config ∧
    GoodTail (l.Append r).log ∧
    (l.Append r).log.Reader =
      l.Reader ++ frame (encodeRecord { r with offset := l.activeNext }) := by
  obtain ⟨ss, s, hseg, hcfg, hmm, hdv, hrm⟩ := hgt
  have he : entWidth = 12 := rfl
  have hlast : l.segments.getLast? = some s := by rw [hseg]; exact List.getLast?_concat _
  have hnext : l.activeNext = s.nextOffset := activeNext_of_last l s hlast
  have hroom : ¬ s.index.mmap.length < s.index.size + entWidth := by rw [hmm]; omega
  have happ := Log.Append_of_last l ss s r hseg
  rw [Segment.Append_room s r hroom] at happ
  simp only at happ
  rw [hnext]
  set s2 : Segment := { s with
      store := ⟨s.store.data ++ frame (encodeRecord { r with offset := s.nextOffset }),
                s.store.size + (lenWidth + (encodeRecord { r with offset := s.nextOffset }).length)⟩,
      index := ⟨writeBytesAt s.index.mmap s.index.size
                  (beBytes 4 (u64sub s.nextOffset s.baseOffset % U32) ++ beBytes 8 s.store.size),
                s.index.size + entWidth⟩,
      nextOffset := s.nextOffset + 1 } with hs2
  have hs2mm : s2.index.mmap.length = l.config.maxIndexBytes := by
    rw [hs2]
    simp only
    rw [writeBytesAt_length]
    · exact hmm
    · rw [hmm]
      simp [length_beBytes]
      omega
  by_cases hm : s2.IsMaxed
  · rw [if_pos hm] at happ
    rw [happ]
    refine ⟨rfl, ?_, rfl, ?_, ?_⟩
    · unfold Log.activeNext
      simp only [List.getLast?_concat]
      simp [newSegment]
    · refine ⟨ss ++ [s2], newSegment l.config (s.nextOffset + 1), rfl, rfl, ?_, ?_, ?_⟩
      · simp [newSegment]
      · exact dvd_zero entWidth
      · show 0 + entWidth ≤ l.config.maxIndexBytes
        rw [he]
        rw [he] at hrm
        omega
    · simp only [Log.Reader, List.map_append, List.flatten_append]
      rw [hseg]
      simp [hs2, newSegment, List.map_append, List.flatten_append]
  · rw [if_neg hm] at happ
    rw [happ]
    have hlt : s.index.size + entWidth < l.config.maxIndexBytes := by
      simp only [Segment.IsMaxed, Bool.or_eq_true, decide_eq_true_eq, not_or] at hm
      have h2 := hm.2
      rw [hcfg] at h2
      omega
    refine ⟨rfl, ?_, rfl, ?_, ?_⟩
    · unfold Log.activeNext
      simp only [List.getLast?_concat]
    · refine ⟨ss, s2, rfl, ?_, hs2mm, ?_, ?_⟩
      · show s.config = l.config
        exact hcfg
      · show entWidth ∣ s.index.size + entWidth
        exact Dvd.dvd.add hdv dvd_rfl
      · show s.index.size + entWidth + entWidth ≤ l.config.maxIndexBytes
        rw [he]
        rw [he] at hdv hdvd hlt
        omega
    · simp only [Log.Reader, List.map_append, List.flatten_append]
      rw [hseg]
      simp [hs2, List.map_append, List.flatten_append]

/-- Replaying a framed record list whose offsets continue the log's
active `nextOffset` succeeds and appends exactly the same frames to the
reader stream. -/
theorem restoreLoop_frames : ∀ (rs : List Record) (l : Log) (i : Nat),
    i ≠ 0 → GoodTail l → entWidth ∣ l.config.maxIndexBytes →
    (∀ r ∈ rs, RecCanon r) →
    rs.map Record.offset = List.range' l.activeNext rs.length →
    ∃ l', restoreLoop l (framesOf rs) i = .ok l' ∧
      l'.Reader = l.Reader ++ framesOf rs := by
  intro rs
  induction rs with
  | nil =>
      intro l i _ _ _ _ _
      exact ⟨l, restoreLoop_nil l i, by simp [framesOf_nil]⟩
  | cons r rs ih =>
      intro l i hi hgt hdvd hcanon hoffs
      have hcr := hcanon r (List.mem_cons_self r rs)
      have hp : (encodeRecord r).length < U64 := by
        rw [length_encodeRecord]
        exact hcr.2.2.2.1
      have hdec : decodeRecord (encodeRecord r) = some r :=
        decode_encode_canonical r (by have := hcr.2.2.2.1; unfold U64 at *; omega)
          hcr.1 hcr.2.1 hcr.2.2.1
      rw [List.map_cons, List.length_cons, List.range'_succ l.activeNext rs.length 1] at hoffs
      injection hoffs with hr0 h2
      obtain ⟨hok, hnx, hcfg2, hgt2, hrd⟩ := Append_goodtail l r hgt hdvd
      have hrr : ({ r with offset := r.offset } : Record) = r := rfl
      rw [← hr0] at hrd
      rw [hrr] at hrd
      rw [framesOf_cons, restoreLoop_step l (encodeRecord r) (framesOf rs) i hp, hdec]
      simp only
      rw [if_neg hi, hok]
      simp only
      obtain ⟨l', hrl, hrdr⟩ := ih (l.Append r).log (i + 1) (by omega) hgt2
        (by rw [hcfg2]; exact hdvd)
        (fun x hx => hcanon x (List.mem_cons_of_mem r hx))
        (by rw [hnx]; exact h2)
      exact ⟨l', hrl, by rw [hrdr, hrd, List.append_assoc]⟩

/-- Restoring a non-empty canonical frame stream with consecutive
offsets from iteration `0`: the first record resets the log at its
offset, the replay appends everything, and the resulting reader stream
is exactly the input stream. -/
theorem restoreLoop_from_zero (l0 : Log) (r0 : Record) (rest : List Record)
    (hmi : entWidth ≤ l0.config.maxIndexBytes)
    (hdvd : entWidth ∣ l0.config.maxIndexBytes)
    (hcanon : ∀ r ∈ r0 :: rest, RecCanon r)
    (hoffs : (r0 :: rest).map Record.offset = List.range' r0.offset (r0 :: rest).length) :
    ∃ l', restoreLoop l0 (framesOf (r0 :: rest)) 0 = .ok l' ∧
      l'.Reader = framesOf (r0 :: rest) := by
  have hcr := hcanon r0 (List.mem_cons_self r0 rest)
  have hp : (encodeRecord r0).length < U64 := by
    rw [length_encodeRecord]
    exact hcr.2.2.2.1
  have hdec : decodeRecord (encodeRecord r0) = some r0 :=
    decode_encode_canonical r0 (by have := hcr.2.2.2.1; unfold U64 at *; omega)
      hcr.1 hcr.2.1 hcr.2.2.1
  rw [List.map_cons, List.length_cons, List.range'_succ r0.offset rest.length 1] at hoffs
  injection hoffs with _ hrest
  rw [framesOf_cons, restoreLoop_step l0 (encodeRecord r0) (framesOf rest) 0 hp, hdec]
  simp only [if_true]
  set L1 : Log := (Log.mk (Config.mk l0.config.maxStoreBytes l0.config.maxIndexBytes r0.offset) l0.segments).Reset with hL1
  have hc1 : L1.config.maxIndexBytes = l0.config.maxIndexBytes := rfl
  have hgt1 : GoodTail L1 := by
    refine ⟨[], newSegment L1.config L1.config.initialOffset, rfl, rfl, ?_, dvd_zero _, ?_⟩
    · simp [newSegment]
    · show 0 + entWidth ≤ L1.config.maxIndexBytes
      rw [Nat.zero_add, hc1]
      exact hmi
  have hdvd1 : entWidth ∣ L1.config.maxIndexBytes := hdvd
  have hact1 : L1.activeNext = r0.offset := rfl
  obtain ⟨hok, hnx, hcfg2, hgt2, hrdA⟩ := Append_goodtail L1 r0 hgt1 hdvd1
  rw [hok]
  simp only
  rw [hact1] at hrdA hnx
  have hrd1 : L1.Reader = [] := by
    rw [hL1]
    simp [Log.Reader, Log.Reset, newSegment]
  have hrr : ({ r0 with offset := r0.offset } : Record) = r0 := rfl
  rw [hrd1, hrr] at hrdA
  obtain ⟨l', hrl, hrdr⟩ := restoreLoop_frames rest (L1.Append r0).log 1 one_ne_zero hgt2
    (by rw [hcfg2]; exact hdvd1)
    (fun x hx => hcanon x (List.mem_cons_of_mem r0 hx))
    (by rw [hnx]; exact hrest)
  refine ⟨l', hrl, ?_⟩
  rw [hrdr, hrdA]
  simp

/-- C7: snapshot/restore idempotence.  For every well-formed log state
`S`, snapshotting `S` through the FSM into the byte stream `B` (the
`Reader()` frame sequence), restoring an FSM holding a fresh log from
`B` (which sets `initial_offset` from the first decoded record's
offset, resets the log, then appends every decoded record in order),
and snapshotting the restored FSM again yields a byte stream equal to
`B`.  The fresh log's index capacity must hold at least one 12-byte
entry and be 12-byte aligned, so that the replayed appends never hit
the index-full fault of C8. -/
theorem c7_snapshot_restore_idempotent (S : Log) (cfg : Config)
    (hS : LogWF S)
    (hmi : entWidth ≤ cfg.maxIndexBytes)
    (hdvd : entWidth ∣ cfg.maxIndexBytes) :
    ∃ f2 : FSM, (FSM.mk (NewLog cfg)).Restore ((FSM.mk S).Snapshot) = .ok f2 ∧
      f2.Snapshot = (FSM.mk S).Snapshot := by
  have hne : cfg.maxIndexBytes ≠ 0 := by
    have he : entWidth = 12 := rfl
    rw [he] at hmi
    omega
  have hNc : (NewLog cfg).config.maxIndexBytes = cfg.maxIndexBytes := by
    simp [NewLog, hne]
  have hrd : S.Reader = framesOf S.allRecs := hS.reader_frames
  have hcanon := hS.allRecs_canon
  have hB : (FSM.mk S).Snapshot = framesOf S.allRecs := hrd
  cases hAR : S.allRecs with
  | nil =>
      refine ⟨⟨NewLog cfg⟩, ?_, ?_⟩
      · show (restoreLoop (NewLog cfg) ((FSM.mk S).Snapshot) 0).map FSM.mk =
          Except.ok (FSM.mk (NewLog cfg))
        rw [hB, hAR, framesOf_nil, restoreLoop_nil]
        rfl
      · show (NewLog cfg).Reader = (FSM.mk S).Snapshot
        rw [hB, hAR, framesOf_nil]
        simp [NewLog, Log.Reader, newSegment]
  | cons r0 rest =>
      have ho : S.allRecs.map Record.offset =
          List.range' ((S.segments.head hS.1).baseOffset) S.allRecs.length :=
        recs_offsets_chain S.config S.segments hS.2.1 hS.2.2.1 hS.1
      rw [hAR] at ho hcanon
      have ho2 := ho
      rw [List.map_cons, List.length_cons,
        List.range'_succ (S.segments.head hS.1).baseOffset rest.length 1] at ho2
      injection ho2 with hr0of _
      rw [← hr0of] at ho
      obtain ⟨l', hrl, hrdr⟩ := restoreLoop_from_zero (NewLog cfg) r0 rest
        (by rw [hNc]; exact hmi) (by rw [hNc]; exact hdvd) hcanon ho
      refine ⟨⟨l'⟩, ?_, ?_⟩
      · show (restoreLoop (NewLog cfg) ((FSM.mk S).Snapshot) 0).map FSM.mk =
          Except.ok (FSM.mk l')
        rw [hB, hAR, hrl]
        rfl
      · show l'.Reader = (FSM.mk S).Snapshot
        rw [hB, hAR, hrdr]

theorem c7_snapshot_restore_idempotent_witness :
    LogWF (((NewLog ⟨64, 36, 0⟩).Append ⟨[7, 8], 0, 0, 0⟩).log) ∧
    entWidth ≤ (⟨32, 24, 5⟩ : Config).maxIndexBytes ∧
    entWidth ∣ (⟨32, 24, 5⟩ : Config).maxIndexBytes ∧
    (∃ f2 : FSM,
      (FSM.mk (NewLog ⟨32, 24, 5⟩)).Restore
          ((FSM.mk (((NewLog ⟨64, 36, 0⟩).Append ⟨[7, 8], 0, 0, 0⟩).log)).Snapshot) = .ok f2 ∧
        f2.Snapshot =
          (FSM.mk (((NewLog ⟨64, 36, 0⟩).Append ⟨[7, 8], 0, 0, 0⟩).log)).Snapshot) :=
  ⟨by decide, by decide, by decide,
    c7_snapshot_restore_idempotent (((NewLog ⟨64, 36, 0⟩).Append ⟨[7, 8], 0, 0, 0⟩).log)
      ⟨32, 24, 5⟩ (by decide) (by decide) (by decide)⟩
